import Mathlib

/-!
Verification of the UV-grid geometric synthesis and refinement engine
(`ml/uvnet/data/synth.py` and `services/native-geo/app.py`).

Modelling conventions:
* Python/numpy floating-point scalars are modelled as exact rationals (`ℚ`).
* The single place where IEEE-754 special values can arise in the engine is
  the division `1 / (dot00 * dot11 - dot01 * dot01)` inside the barycentric
  point-in-triangle tests.  numpy does not raise on division by zero there:
  it yields `inf`, and subsequent arithmetic and comparisons follow IEEE
  semantics (`0 * inf = nan`, comparisons with `nan` are false).  We model
  this with the tiny `FP` type below; all other arithmetic stays in `ℚ`.
* 2-D numpy arrays (grids) are modelled as functions `ℕ → ℕ → ℚ`; entries
  outside the `R × R` window are junk values that no claim depends on.
* Calls into `np.random` are modelled by passing each drawn value as an
  explicit argument (the index of the chosen occupied pixel, the sampled
  diameter, etc.); theorems carry the documented bounds as hypotheses.
-/

/-- Result values of a floating-point computation: a finite rational value or
one of the IEEE-754 specials produced by division by zero. -/
inductive FP where
  | fin (q : ℚ)
  | pinf
  | ninf
  | nan
deriving DecidableEq

/-- Model of `1 / q` on IEEE floats for an exactly-computed denominator `q`:
division of `1.0` by (positive) zero yields `+inf`, otherwise the exact
finite reciprocal. -/
def FP.recip (q : ℚ) : FP :=
  if q = 0 then FP.pinf else FP.fin q⁻¹

/-- Model of multiplying a finite float `a` by a possibly-special float:
`a * ±inf` keeps or flips the infinity by the sign of `a`, and `0 * ±inf`
is `nan` (IEEE-754). -/
def FP.mulFin (a : ℚ) : FP → FP
  | FP.fin b => FP.fin (a * b)
  | FP.pinf => if 0 < a then FP.pinf else if a < 0 then FP.ninf else FP.nan
  | FP.ninf => if 0 < a then FP.ninf else if a < 0 then FP.pinf else FP.nan
  | FP.nan => FP.nan

/-- Model of IEEE float addition on possibly-special values; `inf + (-inf)`
is `nan`. -/
def FP.add : FP → FP → FP
  | FP.nan, _ => FP.nan
  | _, FP.nan => FP.nan
  | FP.fin a, FP.fin b => FP.fin (a + b)
  | FP.fin _, FP.pinf => FP.pinf
  | FP.fin _, FP.ninf => FP.ninf
  | FP.pinf, FP.fin _ => FP.pinf
  | FP.ninf, FP.fin _ => FP.ninf
  | FP.pinf, FP.pinf => FP.pinf
  | FP.ninf, FP.ninf => FP.ninf
  | FP.pinf, FP.ninf => FP.nan
  | FP.ninf, FP.pinf => FP.nan

/-- Model of the IEEE `<=` comparison: any comparison involving `nan` is
false. -/
def FP.le : FP → FP → Bool
  | FP.nan, _ => false
  | _, FP.nan => false
  | FP.fin a, FP.fin b => decide (a ≤ b)
  | FP.fin _, FP.pinf => true
  | FP.fin _, FP.ninf => false
  | FP.pinf, FP.fin _ => false
  | FP.pinf, FP.pinf => true
  | FP.pinf, FP.ninf => false
  | FP.ninf, _ => true

/-- Componentwise subtraction of 2-D points (numpy vector subtraction). -/
def subP (a b : ℚ × ℚ) : ℚ × ℚ := (a.1 - b.1, a.2 - b.2)

/-- Dot product of 2-D points (`np.dot`). -/
def dotP (a b : ℚ × ℚ) : ℚ := a.1 * b.1 + a.2 * b.2

/-- Barycentric point-in-triangle test, `point_in_triangle` from
`services/native-geo/app.py`. -/
def point_in_triangle (p v0 v1 v2 : ℚ × ℚ) : Bool :=
  let v0v1 := subP v1 v0
  let v0v2 := subP v2 v0
  let v0p := subP p v0
  let dot00 := dotP v0v2 v0v2
  let dot01 := dotP v0v2 v0v1
  let dot02 := dotP v0v2 v0p
  let dot11 := dotP v0v1 v0v1
  let dot12 := dotP v0v1 v0p
  let inv_denom := FP.recip (dot00 * dot11 - dot01 * dot01)
  let u := FP.mulFin (dot11 * dot02 - dot01 * dot12) inv_denom
  let v := FP.mulFin (dot00 * dot12 - dot01 * dot02) inv_denom
  FP.le (FP.fin 0) u && FP.le (FP.fin 0) v && FP.le (FP.add u v) (FP.fin 1)

/-- Barycentric point-in-triangle test, `UVGridRenderer._point_in_triangle`
from `ml/uvnet/data/synth.py` (a verbatim duplicate of the inference-path
test; kept as a separate definition because claim C5 is about the two
copies agreeing). -/
def UVGridRenderer.point_in_triangle (p v0 v1 v2 : ℚ × ℚ) : Bool :=
  let v0v1 := subP v1 v0
  let v0v2 := subP v2 v0
  let v0p := subP p v0
  let dot00 := dotP v0v2 v0v2
  let dot01 := dotP v0v2 v0v1
  let dot02 := dotP v0v2 v0p
  let dot11 := dotP v0v1 v0v1
  let dot12 := dotP v0v1 v0p
  let inv_denom := FP.recip (dot00 * dot11 - dot01 * dot01)
  let u := FP.mulFin (dot11 * dot02 - dot01 * dot12) inv_denom
  let v := FP.mulFin (dot00 * dot12 - dot01 * dot02) inv_denom
  FP.le (FP.fin 0) u && FP.le (FP.fin 0) v && FP.le (FP.add u v) (FP.fin 1)

/-- Barycentric denominator of a triangle, written out from the source:
`dot00 * dot11 - dot01 * dot01`. -/
def pitDenom (v0 v1 v2 : ℚ × ℚ) : ℚ :=
  dotP (subP v2 v0) (subP v2 v0) * dotP (subP v1 v0) (subP v1 v0) -
    dotP (subP v2 v0) (subP v1 v0) * dotP (subP v2 v0) (subP v1 v0)

/-- On a degenerate triangle (zero barycentric denominator) the
point-in-triangle test always returns `false`: the IEEE specials produced by
the division by zero never satisfy the three comparisons. -/
theorem point_in_triangle_degenerate (p v0 v1 v2 : ℚ × ℚ)
    (h : pitDenom v0 v1 v2 = 0) :
    point_in_triangle p v0 v1 v2 = false := by
  unfold point_in_triangle
  unfold pitDenom at h
  simp only [FP.recip, if_pos h]
  set uN := dotP (subP v1 v0) (subP v1 v0) * dotP (subP v2 v0) (subP p v0) -
      dotP (subP v2 v0) (subP v1 v0) * dotP (subP v1 v0) (subP p v0) with huN
  set vN := dotP (subP v2 v0) (subP v2 v0) * dotP (subP v1 v0) (subP p v0) -
      dotP (subP v2 v0) (subP v1 v0) * dotP (subP v2 v0) (subP p v0) with hvN
  rcases lt_trichotomy uN 0 with hu | hu | hu
  · simp [FP.mulFin, not_lt.mpr hu.le, hu, FP.le]
  · simp [FP.mulFin, hu, FP.le]
  · rcases lt_trichotomy vN 0 with hv | hv | hv
    · simp [FP.mulFin, hu, not_lt.mpr hv.le, hv, FP.le]
    · simp [FP.mulFin, hu, hv, FP.le, FP.add]
    · simp [FP.mulFin, hu, hv, FP.le, FP.add]

/-- An occupancy grid: row index (V axis) first, column index (U axis)
second, as in the numpy arrays `occ[v, u]`. -/
def Grid := ℕ → ℕ → ℚ

/-- The all-zero grid (`np.zeros`). -/
def zeroGrid : Grid := fun _ _ => 0

/-- Write value `x` at row `i`, column `j` of a grid. -/
def setPix (g : Grid) (i j : ℕ) (x : ℚ) : Grid :=
  fun i2 j2 => if i2 = i ∧ j2 = j then x else g i2 j2

/-- The list `[lo, lo+1, ..., hi-1]`, i.e. Python's `range(lo, hi)`. -/
def rangeList (lo hi : ℕ) : List ℕ :=
  (List.range (hi - lo)).map (fun k => lo + k)

theorem mem_rangeList {lo hi x : ℕ} : x ∈ rangeList lo hi ↔ lo ≤ x ∧ x < hi := by
  simp only [rangeList, List.mem_map, List.mem_range]
  constructor
  · rintro ⟨k, hk, rfl⟩
    omega
  · rintro ⟨h1, h2⟩
    exact ⟨x - lo, by omega, by omega⟩

/-- Clamped pixel bounding box of a triangle: `max(0, int(np.floor(m * W)))`
for the lower bounds. -/
def bbLo (res : ℕ) (m : ℚ) : ℕ := (max 0 ⌊m * (res : ℚ)⌋).toNat

/-- Clamped pixel bounding box of a triangle: `min(W, int(np.ceil(m * W)))`
for the upper bounds. -/
def bbHi (res : ℕ) (m : ℚ) : ℕ := (min (res : ℤ) ⌈m * (res : ℚ)⌉).toNat

/-- Rasterization of one triangle into a grid: the body of the
`for face in mesh.faces` loop of `rasterize_uv_grid`
(`services/native-geo/app.py`), with the two nested pixel loops written as
folds over Python ranges. -/
def rasterFace (res : ℕ) (uv : List (ℚ × ℚ)) (g : Grid) (f : ℕ × ℕ × ℕ) : Grid :=
  let v0 := uv.getD f.1 (0, 0)
  let v1 := uv.getD f.2.1 (0, 0)
  let v2 := uv.getD f.2.2 (0, 0)
  let uMin := bbLo res (min (min v0.1 v1.1) v2.1)
  let uMax := bbHi res (max (max v0.1 v1.1) v2.1)
  let vMin := bbLo res (min (min v0.2 v1.2) v2.2)
  let vMax := bbHi res (max (max v0.2 v1.2) v2.2)
  (rangeList vMin vMax).foldl
    (fun g1 (v : ℕ) =>
      (rangeList uMin uMax).foldl
        (fun g2 (u : ℕ) =>
          if point_in_triangle ((u : ℚ) / (res : ℚ), (v : ℚ) / (res : ℚ)) v0 v1 v2 then
            setPix g2 v u 1
          else g2)
        g1)
    g

/-- Mesh input of the inference service (`MeshInput` pydantic model):
vertices, triangle index triples, and optional per-vertex UVs. -/
structure MeshInput where
  vertices : List (ℚ × ℚ × ℚ)
  faces : List (ℕ × ℕ × ℕ)
  uv : Option (List (ℚ × ℚ))

/-- Maximum entry of `vertices[:, :2]` (numpy `.max()` over the x and y
columns).  numpy raises on an empty array; the empty case is modelled as 0
and is not reachable from any claim. -/
def maxXY (vs : List (ℚ × ℚ × ℚ)) : ℚ :=
  vs.foldl (fun a p => max a (max p.1 p.2.1))
    (match vs with
     | [] => 0
     | p :: _ => max p.1 p.2.1)

/-- Fallback UV projection used when no UVs are provided:
`vertices[:, :2] / (vertices[:, :2].max() + 1e-6)`. -/
def projUV (vs : List (ℚ × ℚ × ℚ)) : List (ℚ × ℚ) :=
  vs.map (fun p => (p.1 / (maxXY vs + 1 / 1000000), p.2.1 / (maxXY vs + 1 / 1000000)))

/-- The per-vertex UVs `rasterize_uv_grid` actually rasterizes with: the
provided UVs, or the fallback projection when `mesh.uv is None`. -/
def resolvedUV (mesh : MeshInput) : List (ℚ × ℚ) :=
  match mesh.uv with
  | none => projUV mesh.vertices
  | some u => u

/-- The inference-path rasterizer `rasterize_uv_grid`
(`services/native-geo/app.py`). -/
def rasterize_uv_grid (mesh : MeshInput) (resolution : ℕ) : Grid :=
  mesh.faces.foldl (rasterFace resolution (resolvedUV mesh)) zeroGrid

/-- Mesh representation of the synthesis path (`MeshData` dataclass in
`ml/uvnet/data/synth.py`): UVs are always present. -/
structure MeshData where
  vertices : List (ℚ × ℚ × ℚ)
  faces : List (ℕ × ℕ × ℕ)
  uv : List (ℚ × ℚ)

/-- Rasterization of one triangle in the synthesis path: the body of the
`for face in mesh.faces` loop of `UVGridRenderer.render`
(`ml/uvnet/data/synth.py`).  A verbatim duplicate of `rasterFace`, calling
the synthesis copy of the point-in-triangle test (claim C5 is about the two
copies agreeing). -/
def renderFace (res : ℕ) (uv : List (ℚ × ℚ)) (g : Grid) (f : ℕ × ℕ × ℕ) : Grid :=
  let v0 := uv.getD f.1 (0, 0)
  let v1 := uv.getD f.2.1 (0, 0)
  let v2 := uv.getD f.2.2 (0, 0)
  let uMin := bbLo res (min (min v0.1 v1.1) v2.1)
  let uMax := bbHi res (max (max v0.1 v1.1) v2.1)
  let vMin := bbLo res (min (min v0.2 v1.2) v2.2)
  let vMax := bbHi res (max (max v0.2 v1.2) v2.2)
  (rangeList vMin vMax).foldl
    (fun g1 (v : ℕ) =>
      (rangeList uMin uMax).foldl
        (fun g2 (u : ℕ) =>
          if UVGridRenderer.point_in_triangle
              ((u : ℚ) / (res : ℚ), (v : ℚ) / (res : ℚ)) v0 v1 v2 then
            setPix g2 v u 1
          else g2)
        g1)
    g

/-- The synthesis-path renderer `UVGridRenderer.render`
(`ml/uvnet/data/synth.py`): occupancy channel followed by the
caller-supplied tag channels. -/
def UVGridRenderer.render (resolution : ℕ) (mesh : MeshData) (tags : List Grid) :
    List Grid :=
  let occ := mesh.faces.foldl (renderFace resolution mesh.uv) zeroGrid
  occ :: tags

/-- Decides whether the pixel at row `i`, column `j` gets painted by face
`f`: the pixel lies inside the face's clamped bounding box and its sample
point passes the barycentric test.  Used to characterize the imperative
rasterization loops. -/
def coveredBy (res : ℕ) (uv : List (ℚ × ℚ)) (f : ℕ × ℕ × ℕ) (i j : ℕ) : Bool :=
  let v0 := uv.getD f.1 (0, 0)
  let v1 := uv.getD f.2.1 (0, 0)
  let v2 := uv.getD f.2.2 (0, 0)
  decide (bbLo res (min (min v0.2 v1.2) v2.2) ≤ i) &&
    decide (i < bbHi res (max (max v0.2 v1.2) v2.2)) &&
    decide (bbLo res (min (min v0.1 v1.1) v2.1) ≤ j) &&
    decide (j < bbHi res (max (max v0.1 v1.1) v2.1)) &&
    point_in_triangle ((j : ℚ) / (res : ℚ), (i : ℚ) / (res : ℚ)) v0 v1 v2

theorem foldRow_apply (res : ℕ) (v0 v1 v2 : ℚ × ℚ) (v : ℕ) (us : List ℕ)
    (g : Grid) (i j : ℕ) :
    (us.foldl
        (fun g2 (u : ℕ) =>
          if point_in_triangle ((u : ℚ) / (res : ℚ), (v : ℚ) / (res : ℚ)) v0 v1 v2 then
            setPix g2 v u 1
          else g2)
        g) i j
      = if i = v ∧ j ∈ us ∧
            point_in_triangle ((j : ℚ) / (res : ℚ), (v : ℚ) / (res : ℚ)) v0 v1 v2 = true
        then 1 else g i j := by
  induction us generalizing g with
  | nil => simp
  | cons u rest ih =>
    simp only [List.foldl_cons, List.mem_cons]
    rw [ih]
    by_cases h1 : i = v
    · subst h1
      by_cases h2 : j = u
      · subst h2
        by_cases h3 : point_in_triangle ((j : ℚ) / (res : ℚ), (i : ℚ) / (res : ℚ)) v0 v1 v2 = true
        · by_cases h4 : j ∈ rest <;> simp [h3, h4, setPix]
        · have h3f : point_in_triangle ((j : ℚ) / (res : ℚ), (i : ℚ) / (res : ℚ)) v0 v1 v2 = false :=
            Bool.eq_false_iff.mpr h3
          by_cases h4 : j ∈ rest <;> simp [h3f, h4]
      · by_cases h3 : point_in_triangle ((u : ℚ) / (res : ℚ), (i : ℚ) / (res : ℚ)) v0 v1 v2 = true <;>
          by_cases h4 : j ∈ rest <;>
            simp [h3, h4, h2, setPix]
    · by_cases h3 : point_in_triangle ((u : ℚ) / (res : ℚ), (v : ℚ) / (res : ℚ)) v0 v1 v2 = true <;>
        simp [h3, h1, setPix]

theorem foldRows_apply (res : ℕ) (v0 v1 v2 : ℚ × ℚ) (vs us : List ℕ)
    (g : Grid) (i j : ℕ) :
    (vs.foldl
        (fun g1 (v : ℕ) =>
          us.foldl
            (fun g2 (u : ℕ) =>
              if point_in_triangle ((u : ℚ) / (res : ℚ), (v : ℚ) / (res : ℚ)) v0 v1 v2 then
                setPix g2 v u 1
              else g2)
            g1)
        g) i j
      = if i ∈ vs ∧ j ∈ us ∧
            point_in_triangle ((j : ℚ) / (res : ℚ), (i : ℚ) / (res : ℚ)) v0 v1 v2 = true
        then 1 else g i j := by
  induction vs generalizing g with
  | nil => simp
  | cons v rest ih =>
    simp only [List.foldl_cons, List.mem_cons]
    rw [ih, foldRow_apply]
    by_cases h1 : i = v
    · subst h1
      by_cases h2 : j ∈ us <;>
        by_cases h3 : point_in_triangle ((j : ℚ) / (res : ℚ), (i : ℚ) / (res : ℚ)) v0 v1 v2 = true <;>
          by_cases h4 : i ∈ rest <;>
            simp [h2, h3, h4]
    · by_cases h4 : i ∈ rest <;> simp [h1, h4]

theorem rasterBox_apply (res : ℕ) (v0 v1 v2 : ℚ × ℚ) (g : Grid) (i j : ℕ) :
    ((rangeList (bbLo res (min (min v0.2 v1.2) v2.2))
          (bbHi res (max (max v0.2 v1.2) v2.2))).foldl
        (fun g1 (v : ℕ) =>
          (rangeList (bbLo res (min (min v0.1 v1.1) v2.1))
              (bbHi res (max (max v0.1 v1.1) v2.1))).foldl
            (fun g2 (u : ℕ) =>
              if point_in_triangle ((u : ℚ) / (res : ℚ), (v : ℚ) / (res : ℚ)) v0 v1 v2 then
                setPix g2 v u 1
              else g2)
            g1)
        g) i j
      = if (decide (bbLo res (min (min v0.2 v1.2) v2.2) ≤ i) &&
            decide (i < bbHi res (max (max v0.2 v1.2) v2.2)) &&
            decide (bbLo res (min (min v0.1 v1.1) v2.1) ≤ j) &&
            decide (j < bbHi res (max (max v0.1 v1.1) v2.1)) &&
            point_in_triangle ((j : ℚ) / (res : ℚ), (i : ℚ) / (res : ℚ)) v0 v1 v2) = true
        then 1 else g i j := by
  rw [foldRows_apply]
  refine if_congr ?_ rfl rfl
  simp only [mem_rangeList, Bool.and_eq_true, decide_eq_true_eq]
  tauto

theorem rasterFace_apply (res : ℕ) (uv : List (ℚ × ℚ)) (g : Grid)
    (f : ℕ × ℕ × ℕ) (i j : ℕ) :
    rasterFace res uv g f i j
      = if coveredBy res uv f i j = true then 1 else g i j :=
  rasterBox_apply res (uv.getD f.1 (0, 0)) (uv.getD f.2.1 (0, 0))
    (uv.getD f.2.2 (0, 0)) g i j

theorem foldFaces_apply (res : ℕ) (uv : List (ℚ × ℚ)) (faces : List (ℕ × ℕ × ℕ))
    (g : Grid) (i j : ℕ) :
    (faces.foldl (rasterFace res uv) g) i j
      = if faces.any (fun f => coveredBy res uv f i j) = true then 1 else g i j := by
  induction faces generalizing g with
  | nil => simp
  | cons f rest ih =>
    simp only [List.foldl_cons, List.any_cons]
    rw [ih, rasterFace_apply]
    by_cases h1 : coveredBy res uv f i j = true <;>
      by_cases h2 : rest.any (fun f => coveredBy res uv f i j) = true <;>
        simp [h1, h2]

/-- Characterization of the imperative rasterization loops: a pixel ends up
occupied exactly when some face covers it. -/
theorem rasterize_uv_grid_apply (mesh : MeshInput) (res : ℕ) :
    rasterize_uv_grid mesh res
      = fun i j =>
          if mesh.faces.any (fun f => coveredBy res (resolvedUV mesh) f i j) = true
          then 1 else 0 := by
  funext i j
  unfold rasterize_uv_grid
  rw [foldFaces_apply]
  rfl

theorem coveredBy_pit {res : ℕ} {uv : List (ℚ × ℚ)} {f : ℕ × ℕ × ℕ} {i j : ℕ}
    (h : coveredBy res uv f i j = true) :
    point_in_triangle ((j : ℚ) / (res : ℚ), (i : ℚ) / (res : ℚ))
      (uv.getD f.1 (0, 0)) (uv.getD f.2.1 (0, 0)) (uv.getD f.2.2 (0, 0)) = true := by
  unfold coveredBy at h
  simp only [Bool.and_eq_true] at h
  exact h.2

/-- Claim C1: a degenerate (zero-area, zero barycentric denominator) triangle
rasterizes to nothing — removing all such faces leaves the output grid
unchanged — and the output grid only ever holds the values 0 and 1 (no
NaN/Inf is ever written into it).  The code has no explicit denominator
check; the modelled IEEE semantics of the division by zero make the
membership test false at every pixel. -/
theorem C1_degenerate_rasterizes_nothing (mesh : MeshInput) (res : ℕ) :
    rasterize_uv_grid mesh res
        = rasterize_uv_grid
            { mesh with
              faces := mesh.faces.filter (fun f =>
                decide (pitDenom ((resolvedUV mesh).getD f.1 (0, 0))
                    ((resolvedUV mesh).getD f.2.1 (0, 0))
                    ((resolvedUV mesh).getD f.2.2 (0, 0)) ≠ 0)) } res
      ∧ ∀ i j, rasterize_uv_grid mesh res i j = 0 ∨ rasterize_uv_grid mesh res i j = 1 := by
  have hres : resolvedUV
      { mesh with
        faces := mesh.faces.filter (fun f =>
          decide (pitDenom ((resolvedUV mesh).getD f.1 (0, 0))
              ((resolvedUV mesh).getD f.2.1 (0, 0))
              ((resolvedUV mesh).getD f.2.2 (0, 0)) ≠ 0)) } = resolvedUV mesh := rfl
  constructor
  · rw [rasterize_uv_grid_apply, rasterize_uv_grid_apply, hres]
    funext i j
    refine if_congr ?_ rfl rfl
    simp only [List.any_eq_true, List.mem_filter, decide_eq_true_eq]
    constructor
    · rintro ⟨f, hf, hcov⟩
      refine ⟨f, ⟨hf, ?_⟩, hcov⟩
      intro hden
      have hfalse := point_in_triangle_degenerate
        ((j : ℚ) / (res : ℚ), (i : ℚ) / (res : ℚ)) _ _ _ hden
      rw [coveredBy_pit hcov] at hfalse
      exact Bool.true_eq_false.mp hfalse
    · rintro ⟨f, ⟨hf, _⟩, hcov⟩
      exact ⟨f, hf, hcov⟩
  · intro i j
    rw [rasterize_uv_grid_apply]
    by_cases h : (mesh.faces.any fun f => coveredBy res (resolvedUV mesh) f i j) = true
    · right; simp [h]
    · left; simp [h]

/-- Claim C5: for a mesh with explicitly provided UVs, the occupancy channel
(channel 0) produced by the synthesis-path renderer equals the grid produced
by the inference-path rasterizer, at every resolution. -/
theorem C5_render_matches_rasterize (res : ℕ) (verts : List (ℚ × ℚ × ℚ))
    (faces : List (ℕ × ℕ × ℕ)) (uvs : List (ℚ × ℚ)) (tags : List Grid) :
    (UVGridRenderer.render res ⟨verts, faces, uvs⟩ tags).headD zeroGrid
      = rasterize_uv_grid ⟨verts, faces, some uvs⟩ res := rfl

/-- Parametric plate generator `MeshGenerator.plate`
(`ml/uvnet/data/synth.py`): a single quad split into two triangles, UVs from
the planar projection `vertices[:, :2] / max(length, width)`; `thickness` is
accepted but unused. -/
def MeshGenerator.plate (length width thickness : ℚ) : MeshData :=
  let vertices : List (ℚ × ℚ × ℚ) :=
    [(0, 0, 0), (length, 0, 0), (length, width, 0), (0, width, 0)]
  { vertices := vertices
    faces := [(0, 1, 2), (0, 2, 3)]
    uv := vertices.map (fun p => (p.1 / max length width, p.2.1 / max length width)) }

/-- Python's `int()` conversion on a float: truncation toward zero. -/
def itrunc (q : ℚ) : ℤ := if q < 0 then ⌈q⌉ else ⌊q⌋

/-- The vertex-selection step of the `/refine` endpoint
(`services/native-geo/app.py`, the `mask_vertex_ids` loop): a vertex index
is kept when `int(u*resolution)` and `int(v*resolution)` both land in
`[0, resolution)` and the mask value there exceeds 0.5. -/
def refineSelectVertices (uvs : List (ℚ × ℚ)) (mask : Grid) (resolution : ℕ) :
    List ℕ :=
  (List.range uvs.length).filter (fun i =>
    let uv := uvs.getD i (0, 0)
    let uIdx := itrunc (uv.1 * (resolution : ℚ))
    let vIdx := itrunc (uv.2 * (resolution : ℚ))
    decide (0 ≤ uIdx ∧ uIdx < (resolution : ℤ) ∧ 0 ≤ vIdx ∧ vIdx < (resolution : ℤ) ∧
      mask vIdx.toNat uIdx.toNat > 1 / 2))


/-- Barycentric `u`-numerator `dot11 * dot02 - dot01 * dot12`, written out. -/
def pitUNum (p v0 v1 v2 : ℚ × ℚ) : ℚ :=
  dotP (subP v1 v0) (subP v1 v0) * dotP (subP v2 v0) (subP p v0) -
    dotP (subP v2 v0) (subP v1 v0) * dotP (subP v1 v0) (subP p v0)

/-- Barycentric `v`-numerator `dot00 * dot12 - dot01 * dot02`, written out. -/
def pitVNum (p v0 v1 v2 : ℚ × ℚ) : ℚ :=
  dotP (subP v2 v0) (subP v2 v0) * dotP (subP v1 v0) (subP p v0) -
    dotP (subP v2 v0) (subP v1 v0) * dotP (subP v2 v0) (subP p v0)

/-- On a non-degenerate triangle the point-in-triangle test reduces to three
exact rational comparisons. -/
theorem point_in_triangle_of_denom_ne {v0 v1 v2 : ℚ × ℚ} (p : ℚ × ℚ)
    (h : pitDenom v0 v1 v2 ≠ 0) :
    point_in_triangle p v0 v1 v2
      = (decide (0 ≤ pitUNum p v0 v1 v2 * (pitDenom v0 v1 v2)⁻¹) &&
         decide (0 ≤ pitVNum p v0 v1 v2 * (pitDenom v0 v1 v2)⁻¹) &&
         decide (pitUNum p v0 v1 v2 * (pitDenom v0 v1 v2)⁻¹ +
            pitVNum p v0 v1 v2 * (pitDenom v0 v1 v2)⁻¹ ≤ 1)) := by
  unfold point_in_triangle pitDenom pitUNum pitVNum at *
  simp only [FP.recip, if_neg h, FP.mulFin, FP.add, FP.le]

theorem plate_uv_value :
    (MeshGenerator.plate 200 150 5).uv = [(0, 0), (1, 0), (1, 3/4), (0, 3/4)] := by
  have hmax : max (200 : ℚ) 150 = 200 := by norm_num
  simp only [MeshGenerator.plate, List.map_cons, List.map_nil, hmax]
  norm_num

theorem plate_pit_00 :
    point_in_triangle ((0 : ℚ), (0 : ℚ)) (0, 0) (1, 0) (1, 3/4) = true := by
  rw [point_in_triangle_of_denom_ne _ (by norm_num [pitDenom, dotP, subP])]
  simp only [Bool.and_eq_true, decide_eq_true_eq]
  norm_num [pitUNum, pitVNum, pitDenom, dotP, subP]

theorem plate_covered_00 :
    coveredBy 256 [((0:ℚ), (0:ℚ)), (1, 0), (1, 3/4), (0, 3/4)] (0, 1, 2) 0 0 = true := by
  unfold coveredBy
  simp only [List.getD, List.get?, Bool.and_eq_true, decide_eq_true_eq]
  refine ⟨⟨⟨⟨?_, ?_⟩, ?_⟩, ?_⟩, ?_⟩
  · norm_num [bbLo]
  · norm_num [bbHi]
  · norm_num [bbLo]
  · norm_num [bbHi]
  · have h0 : ((0 : ℕ) : ℚ) / ((256 : ℕ) : ℚ) = 0 := by norm_num
    rw [h0]
    exact plate_pit_00

theorem plate_covered192_a :
    coveredBy 256 [((0:ℚ), (0:ℚ)), (1, 0), (1, 3/4), (0, 3/4)] (0, 1, 2) 192 0 = false := by
  refine Bool.eq_false_iff.mpr ?_
  intro h
  unfold coveredBy at h
  simp only [List.getD_cons_zero, List.getD_cons_succ, Bool.and_eq_true, decide_eq_true_eq] at h
  have h2 := h.1.1.1.2
  norm_num [bbHi] at h2

theorem plate_covered192_b :
    coveredBy 256 [((0:ℚ), (0:ℚ)), (1, 0), (1, 3/4), (0, 3/4)] (0, 2, 3) 192 0 = false := by
  refine Bool.eq_false_iff.mpr ?_
  intro h
  unfold coveredBy at h
  simp only [List.getD_cons_zero, List.getD_cons_succ, Bool.and_eq_true, decide_eq_true_eq] at h
  have h2 := h.1.1.1.2
  norm_num [bbHi] at h2

theorem plate_any_00 :
    (([(0, 1, 2), (0, 2, 3)] : List (ℕ × ℕ × ℕ)).any fun f =>
        coveredBy 256 [((0:ℚ), (0:ℚ)), (1, 0), (1, 3/4), (0, 3/4)] f 0 0) = true := by
  simp only [List.any_cons, List.any_nil, plate_covered_00, Bool.true_or]

theorem plate_any_192 :
    (([(0, 1, 2), (0, 2, 3)] : List (ℕ × ℕ × ℕ)).any fun f =>
        coveredBy 256 [((0:ℚ), (0:ℚ)), (1, 0), (1, 3/4), (0, 3/4)] f 192 0) = false := by
  simp only [List.any_cons, List.any_nil, plate_covered192_a, plate_covered192_b,
    Bool.or_false, Bool.or_self]

theorem plate_roundtrip_value :
    refineSelectVertices (MeshGenerator.plate 200 150 5).uv
      (rasterize_uv_grid
        ⟨(MeshGenerator.plate 200 150 5).vertices, (MeshGenerator.plate 200 150 5).faces,
          some (MeshGenerator.plate 200 150 5).uv⟩ 256) 256 = [0] := by
  have hfaces : (MeshGenerator.plate 200 150 5).faces = [(0, 1, 2), (0, 2, 3)] := by
    simp [MeshGenerator.plate]
  rw [plate_uv_value, rasterize_uv_grid_apply]
  simp only [hfaces, resolvedUV]
  simp only [refineSelectVertices, List.length_cons, List.length_nil]
  rw [show List.range 4 = [0, 1, 2, 3] from rfl]
  rw [List.filter_cons, List.filter_cons, List.filter_cons, List.filter_cons, List.filter_nil]
  have hit0 : itrunc ((0 : ℚ) * ((256 : ℕ) : ℚ)) = 0 := by norm_num [itrunc]
  have hit1 : itrunc ((1 : ℚ) * ((256 : ℕ) : ℚ)) = 256 := by norm_num [itrunc]
  have hit34 : itrunc ((3/4 : ℚ) * ((256 : ℕ) : ℚ)) = 192 := by norm_num [itrunc]
  have ht192 : Int.toNat (192 : ℤ) = 192 := rfl
  have ht0 : Int.toNat (0 : ℤ) = 0 := rfl
  simp only [List.getD_cons_zero, List.getD_cons_succ, hit0, hit1, hit34, ht192, ht0,
    List.any_cons, List.any_nil, plate_covered_00, plate_covered192_a, plate_covered192_b,
    Bool.true_or, Bool.or_false, Bool.or_self]
  norm_num

/-- Claim C3 counterexample: rasterizing `plate(200,150,5)` at resolution 256
and feeding the resulting occupancy grid to the vertex-selection step does
NOT return all four vertex indices. -/
theorem C3_roundtrip_counterexample :
    refineSelectVertices (MeshGenerator.plate 200 150 5).uv
      (rasterize_uv_grid
        ⟨(MeshGenerator.plate 200 150 5).vertices, (MeshGenerator.plate 200 150 5).faces,
          some (MeshGenerator.plate 200 150 5).uv⟩ 256) 256 ≠ [0, 1, 2, 3] := by
  rw [plate_roundtrip_value]
  decide

/-- Claim C3, amended: the round trip returns exactly `[0]`.  Vertices 1 and
2 have `u = 1`, which maps to pixel column 256 and is excluded by the bounds
check, and vertex 3 maps to pixel row 192, which lies just outside the
rasterized footprint (rows 0..191), so its mask value is 0. -/
theorem C3_roundtrip_amended :
    refineSelectVertices (MeshGenerator.plate 200 150 5).uv
      (rasterize_uv_grid
        ⟨(MeshGenerator.plate 200 150 5).vertices, (MeshGenerator.plate 200 150 5).faces,
          some (MeshGenerator.plate 200 150 5).uv⟩ 256) 256 = [0] :=
  plate_roundtrip_value

/-- Claim C4, amended: the vertex selector keeps index `i` exactly when
`int(u*resolution)` and `int(v*resolution)` — Python `int()`, i.e.
truncation toward zero, not `floor` — both lie in `[0, resolution)` and the
mask value at that pixel exceeds 0.5; out-of-bounds UVs are silently
excluded, never an error. -/
theorem C4_selector_membership (uvs : List (ℚ × ℚ)) (mask : Grid)
    (resolution : ℕ) (i : ℕ) :
    i ∈ refineSelectVertices uvs mask resolution ↔
      i < uvs.length ∧
        0 ≤ itrunc ((uvs.getD i (0, 0)).1 * (resolution : ℚ)) ∧
        itrunc ((uvs.getD i (0, 0)).1 * (resolution : ℚ)) < (resolution : ℤ) ∧
        0 ≤ itrunc ((uvs.getD i (0, 0)).2 * (resolution : ℚ)) ∧
        itrunc ((uvs.getD i (0, 0)).2 * (resolution : ℚ)) < (resolution : ℤ) ∧
        mask (itrunc ((uvs.getD i (0, 0)).2 * (resolution : ℚ))).toNat
          (itrunc ((uvs.getD i (0, 0)).1 * (resolution : ℚ))).toNat > 1 / 2 := by
  simp only [refineSelectVertices, List.mem_filter, List.mem_range, decide_eq_true_eq]

/-- Claim C4 counterexample: a vertex with `u = -1/512` has
`floor(u*256) = -1`, outside `[0,256)`, yet the selector INCLUDES it
(`int(-0.5) = 0` truncates toward zero into bounds), so the claimed
floor-based if-and-only-if characterization is false. -/
theorem C4_floor_counterexample :
    refineSelectVertices [(-(1 / 512 : ℚ), 0)] (fun _ _ => 1) 256 = [0] ∧
      ⌊(-(1 / 512 : ℚ)) * 256⌋ < 0 := by
  constructor
  · have hit : itrunc ((-(1 / 512 : ℚ)) * ((256 : ℕ) : ℚ)) = 0 := by
      norm_num [itrunc]
    simp only [refineSelectVertices, List.length_cons, List.length_nil]
    rw [show List.range 1 = [0] from rfl]
    rw [List.filter_cons, List.filter_nil]
    simp only [List.getD_cons_zero, hit]
    norm_num [itrunc]
  · norm_num

/-- Twice the signed area of the triangle `(v0, v1, v2)`; the triangle has
positive area exactly when this is nonzero. -/
def cross2 (v0 v1 v2 : ℚ × ℚ) : ℚ :=
  (v1.1 - v0.1) * (v2.2 - v0.2) - (v1.2 - v0.2) * (v2.1 - v0.1)

/-- A UV point lies inside the unit square `[0,1]²`. -/
def inUnitSquare (v : ℚ × ℚ) : Prop := 0 ≤ v.1 ∧ v.1 ≤ 1 ∧ 0 ≤ v.2 ∧ v.2 ≤ 1

/-- Point `p` lies strictly inside triangle `(v0, v1, v2)`: it equals
`v0 + a·(v2-v0) + b·(v1-v0)` for strictly positive barycentric coordinates
with `a + b < 1` (the spec's barycentric convention). -/
def strictlyInside (p v0 v1 v2 : ℚ × ℚ) : Prop :=
  ∃ a b : ℚ, 0 < a ∧ 0 < b ∧ a + b < 1 ∧
    p.1 = v0.1 + a * (v2.1 - v0.1) + b * (v1.1 - v0.1) ∧
    p.2 = v0.2 + a * (v2.2 - v0.2) + b * (v1.2 - v0.2)

/-- The closed pixel cell `[qj/res,(qj+1)/res] × [qi/res,(qi+1)/res]` is
disjoint from the triangle's UV bounding box. -/
def cellOutsideBBox (res : ℕ) (v0 v1 v2 : ℚ × ℚ) (qi qj : ℕ) : Prop :=
  ((qj : ℚ) + 1) / (res : ℚ) < min (min v0.1 v1.1) v2.1 ∨
    max (max v0.1 v1.1) v2.1 < (qj : ℚ) / (res : ℚ) ∨
    ((qi : ℚ) + 1) / (res : ℚ) < min (min v0.2 v1.2) v2.2 ∨
    max (max v0.2 v1.2) v2.2 < (qi : ℚ) / (res : ℚ)

theorem pitDenom_eq_sq (v0 v1 v2 : ℚ × ℚ) :
    pitDenom v0 v1 v2 = cross2 v0 v1 v2 ^ 2 := by
  unfold pitDenom cross2 dotP subP
  ring

theorem pitUNum_eq {p v0 v1 v2 : ℚ × ℚ} {a b : ℚ}
    (hx : p.1 = v0.1 + a * (v2.1 - v0.1) + b * (v1.1 - v0.1))
    (hy : p.2 = v0.2 + a * (v2.2 - v0.2) + b * (v1.2 - v0.2)) :
    pitUNum p v0 v1 v2 = a * pitDenom v0 v1 v2 := by
  unfold pitUNum pitDenom dotP subP
  rw [hx, hy]
  ring

theorem pitVNum_eq {p v0 v1 v2 : ℚ × ℚ} {a b : ℚ}
    (hx : p.1 = v0.1 + a * (v2.1 - v0.1) + b * (v1.1 - v0.1))
    (hy : p.2 = v0.2 + a * (v2.2 - v0.2) + b * (v1.2 - v0.2)) :
    pitVNum p v0 v1 v2 = b * pitDenom v0 v1 v2 := by
  unfold pitVNum pitDenom dotP subP
  rw [hx, hy]
  ring

theorem pit_of_strictlyInside {v0 v1 v2 : ℚ × ℚ} (p : ℚ × ℚ)
    (harea : cross2 v0 v1 v2 ≠ 0) (hin : strictlyInside p v0 v1 v2) :
    point_in_triangle p v0 v1 v2 = true := by
  obtain ⟨a, b, ha, hb, hab, hx, hy⟩ := hin
  have hD : 0 < pitDenom v0 v1 v2 := by
    rw [pitDenom_eq_sq]
    exact pow_two_pos_of_ne_zero harea
  have hcancel : ∀ c : ℚ, c * pitDenom v0 v1 v2 * (pitDenom v0 v1 v2)⁻¹ = c := by
    intro c
    field_simp
  rw [point_in_triangle_of_denom_ne p hD.ne', pitUNum_eq hx hy, pitVNum_eq hx hy,
    hcancel a, hcancel b]
  simp only [Bool.and_eq_true, decide_eq_true_eq]
  exact ⟨⟨ha.le, hb.le⟩, by linarith⟩

theorem convex_strict_lower {x0 x1 x2 a b px : ℚ}
    (ha : 0 < a) (hb : 0 < b) (hab : a + b < 1)
    (hpx : px = x0 + a * (x2 - x0) + b * (x1 - x0))
    (hne : ¬(x1 = x0 ∧ x2 = x0)) :
    min (min x0 x1) x2 < px := by
  set m := min (min x0 x1) x2 with hm
  have hm0 : m ≤ x0 := le_trans (min_le_left _ _) (min_le_left _ _)
  have hm1 : m ≤ x1 := le_trans (min_le_left _ _) (min_le_right _ _)
  have hm2 : m ≤ x2 := min_le_right _ _
  by_contra hcon
  push_neg at hcon
  have h0 : 0 ≤ (1 - a - b) * (x0 - m) := mul_nonneg (by linarith) (by linarith)
  have h1 : 0 ≤ b * (x1 - m) := mul_nonneg hb.le (by linarith)
  have h2 : 0 ≤ a * (x2 - m) := mul_nonneg ha.le (by linarith)
  have hsum : (1 - a - b) * (x0 - m) + b * (x1 - m) + a * (x2 - m) = px - m := by
    rw [hpx]
    ring
  have e0 : (1 - a - b) * (x0 - m) = 0 := le_antisymm (by linarith) h0
  have e1 : b * (x1 - m) = 0 := le_antisymm (by linarith) h1
  have e2 : a * (x2 - m) = 0 := le_antisymm (by linarith) h2
  have hx0 : x0 = m := by
    rcases mul_eq_zero.mp e0 with h | h
    · exact absurd h (by intro hz; linarith)
    · linarith
  have hx1 : x1 = m := by
    rcases mul_eq_zero.mp e1 with h | h
    · exact absurd h (ne_of_gt hb)
    · linarith
  have hx2 : x2 = m := by
    rcases mul_eq_zero.mp e2 with h | h
    · exact absurd h (ne_of_gt ha)
    · linarith
  exact hne ⟨by rw [hx1, hx0], by rw [hx2, hx0]⟩

theorem convex_strict_upper {x0 x1 x2 a b px : ℚ}
    (ha : 0 < a) (hb : 0 < b) (hab : a + b < 1)
    (hpx : px = x0 + a * (x2 - x0) + b * (x1 - x0))
    (hne : ¬(x1 = x0 ∧ x2 = x0)) :
    px < max (max x0 x1) x2 := by
  have hneg : ¬(-x1 = -x0 ∧ -x2 = -x0) := by
    intro ⟨u, v⟩
    exact hne ⟨by linarith, by linarith⟩
  have hpx2 : -px = -x0 + a * (-x2 - -x0) + b * (-x1 - -x0) := by
    rw [hpx]
    ring
  have := convex_strict_lower ha hb hab hpx2 hneg
  have hmin : min (min (-x0) (-x1)) (-x2) = -(max (max x0 x1) x2) := by
    rw [min_neg_neg, min_neg_neg]
  rw [hmin] at this
  linarith

theorem bbLo_le_of_lt {res : ℕ} {m : ℚ} {j : ℕ} (h : m * (res : ℚ) < (j : ℚ)) :
    bbLo res m ≤ j := by
  unfold bbLo
  rw [Int.toNat_le]
  refine max_le (Int.ofNat_nonneg j) ?_
  exact (Int.floor_lt.mpr (by exact_mod_cast h)).le

theorem lt_bbHi_of_lt {res : ℕ} {M : ℚ} {j : ℕ}
    (h : (j : ℚ) < M * (res : ℚ)) (hM : M * (res : ℚ) ≤ (res : ℚ)) :
    j < bbHi res M := by
  unfold bbHi
  rw [Int.lt_toNat]
  refine lt_min ?_ (Int.lt_ceil.mpr (by exact_mod_cast h))
  exact_mod_cast lt_of_lt_of_le h hM

theorem lt_bbLo_of {res : ℕ} {m : ℚ} {j : ℕ} (h : (j : ℚ) + 1 < m * (res : ℚ)) :
    j < bbLo res m := by
  unfold bbLo
  rw [Int.lt_toNat]
  refine lt_max_of_lt_right ?_
  have : ((j : ℤ) : ℚ) + 1 ≤ m * (res : ℚ) := by exact_mod_cast h.le
  have h2 : ((j : ℤ) + 1 : ℤ) ≤ ⌊m * (res : ℚ)⌋ := Int.le_floor.mpr (by push_cast; linarith)
  omega

theorem bbHi_le_of {res : ℕ} {M : ℚ} {j : ℕ} (h : M * (res : ℚ) < (j : ℚ)) :
    bbHi res M ≤ j := by
  unfold bbHi
  rw [Int.toNat_le]
  refine min_le_of_right_le ?_
  exact Int.ceil_le.mpr (by exact_mod_cast h.le)

theorem coveredBy_triangle_true {res : ℕ} (hres : 0 < res) {v0 v1 v2 : ℚ × ℚ}
    (harea : cross2 v0 v1 v2 ≠ 0)
    (h0 : inUnitSquare v0) (h1 : inUnitSquare v1) (h2 : inUnitSquare v2)
    {pi pj : ℕ}
    (hin : strictlyInside ((pj : ℚ) / (res : ℚ), (pi : ℚ) / (res : ℚ)) v0 v1 v2) :
    coveredBy res [v0, v1, v2] (0, 1, 2) pi pj = true := by
  have hresq : (0 : ℚ) < (res : ℚ) := by exact_mod_cast hres
  obtain ⟨a, b, ha, hb, hab, hx, hy⟩ := hin
  have hnex : ¬(v1.1 = v0.1 ∧ v2.1 = v0.1) := by
    rintro ⟨e1, e2⟩
    apply harea
    unfold cross2
    rw [e1, e2]
    ring
  have hney : ¬(v1.2 = v0.2 ∧ v2.2 = v0.2) := by
    rintro ⟨e1, e2⟩
    apply harea
    unfold cross2
    rw [e1, e2]
    ring
  have hlox := convex_strict_lower ha hb hab hx hnex
  have hhix := convex_strict_upper ha hb hab hx hnex
  have hloy := convex_strict_lower ha hb hab hy hney
  have hhiy := convex_strict_upper ha hb hab hy hney
  have hMx : max (max v0.1 v1.1) v2.1 ≤ 1 :=
    max_le (max_le h0.2.1 h1.2.1) h2.2.1
  have hMy : max (max v0.2 v1.2) v2.2 ≤ 1 :=
    max_le (max_le h0.2.2.2 h1.2.2.2) h2.2.2.2
  unfold coveredBy
  simp only [List.getD_cons_zero, List.getD_cons_succ, Bool.and_eq_true, decide_eq_true_eq]
  refine ⟨⟨⟨⟨?_, ?_⟩, ?_⟩, ?_⟩, ?_⟩
  · exact bbLo_le_of_lt ((lt_div_iff hresq).mp hloy)
  · refine lt_bbHi_of_lt ((div_lt_iff hresq).mp hhiy) ?_
    calc max (max v0.2 v1.2) v2.2 * (res : ℚ) ≤ 1 * (res : ℚ) :=
          mul_le_mul_of_nonneg_right hMy hresq.le
      _ = (res : ℚ) := one_mul _
  · exact bbLo_le_of_lt ((lt_div_iff hresq).mp hlox)
  · refine lt_bbHi_of_lt ((div_lt_iff hresq).mp hhix) ?_
    calc max (max v0.1 v1.1) v2.1 * (res : ℚ) ≤ 1 * (res : ℚ) :=
          mul_le_mul_of_nonneg_right hMx hresq.le
      _ = (res : ℚ) := one_mul _
  · exact pit_of_strictlyInside _ harea ⟨a, b, ha, hb, hab, hx, hy⟩

theorem coveredBy_triangle_false {res : ℕ} (hres : 0 < res) {v0 v1 v2 : ℚ × ℚ}
    {qi qj : ℕ} (hout : cellOutsideBBox res v0 v1 v2 qi qj) :
    coveredBy res [v0, v1, v2] (0, 1, 2) qi qj = false := by
  have hresq : (0 : ℚ) < (res : ℚ) := by exact_mod_cast hres
  refine Bool.eq_false_iff.mpr ?_
  intro h
  unfold coveredBy at h
  simp only [List.getD_cons_zero, List.getD_cons_succ, Bool.and_eq_true,
    decide_eq_true_eq] at h
  obtain ⟨⟨⟨⟨hA, hB⟩, hC⟩, hD⟩, _⟩ := h
  rcases hout with hc | hc | hc | hc
  · have := lt_bbLo_of ((div_lt_iff hresq).mp hc)
    omega
  · have := bbHi_le_of ((lt_div_iff hresq).mp hc)
    omega
  · have := lt_bbLo_of ((div_lt_iff hresq).mp hc)
    omega
  · have := bbHi_le_of ((lt_div_iff hresq).mp hc)
    omega

/-- Claim C2: for a positive-area triangle with UVs inside the unit square,
rasterizing the one-triangle mesh sets every pixel whose sample point lies
strictly inside the triangle to 1, and leaves every pixel whose cell is
fully outside the triangle's bounding box at 0. -/
theorem C2_triangle_rasterization (res : ℕ) (v0 v1 v2 : ℚ × ℚ)
    (pi pj qi qj : ℕ) (hres : 0 < res)
    (harea : cross2 v0 v1 v2 ≠ 0)
    (h0 : inUnitSquare v0) (h1 : inUnitSquare v1) (h2 : inUnitSquare v2)
    (hin : strictlyInside ((pj : ℚ) / (res : ℚ), (pi : ℚ) / (res : ℚ)) v0 v1 v2)
    (hout : cellOutsideBBox res v0 v1 v2 qi qj) :
    rasterize_uv_grid ⟨[], [(0, 1, 2)], some [v0, v1, v2]⟩ res pi pj = 1 ∧
      rasterize_uv_grid ⟨[], [(0, 1, 2)], some [v0, v1, v2]⟩ res qi qj = 0 := by
  rw [rasterize_uv_grid_apply]
  have hresolved :
      resolvedUV ⟨[], [(0, 1, 2)], some [v0, v1, v2]⟩ = [v0, v1, v2] := rfl
  constructor
  · simp only [hresolved, List.any_cons, List.any_nil, Bool.or_false,
      coveredBy_triangle_true hres harea h0 h1 h2 hin, if_true]
  · simp only [hresolved, List.any_cons, List.any_nil, Bool.or_false,
      coveredBy_triangle_false hres hout]
    simp

theorem C2_triangle_rasterization_witness :
    cross2 (0, 0) (1/2, 0) (0, 1/2) ≠ 0 ∧
      strictlyInside (((1 : ℕ) : ℚ) / ((8 : ℕ) : ℚ), ((1 : ℕ) : ℚ) / ((8 : ℕ) : ℚ))
        (0, 0) (1/2, 0) (0, 1/2) ∧
      cellOutsideBBox 8 (0, 0) (1/2, 0) (0, 1/2) 5 5 ∧
      rasterize_uv_grid ⟨[], [(0, 1, 2)], some [(0, 0), (1/2, 0), (0, 1/2)]⟩ 8 1 1 = 1 ∧
      rasterize_uv_grid ⟨[], [(0, 1, 2)], some [(0, 0), (1/2, 0), (0, 1/2)]⟩ 8 5 5 = 0 := by
  have harea : cross2 (0, 0) ((1/2 : ℚ), (0 : ℚ)) (0, 1/2) ≠ 0 := by
    norm_num [cross2]
  have hin : strictlyInside (((1 : ℕ) : ℚ) / ((8 : ℕ) : ℚ), ((1 : ℕ) : ℚ) / ((8 : ℕ) : ℚ))
      (0, 0) (1/2, 0) (0, 1/2) := by
    refine ⟨1/4, 1/4, by norm_num, by norm_num, by norm_num, ?_, ?_⟩ <;> norm_num
  have hout : cellOutsideBBox 8 (0, 0) (1/2, 0) (0, 1/2) 5 5 := by
    unfold cellOutsideBBox
    right; left
    rw [max_eq_right (by norm_num : (0 : ℚ) ≤ 1/2), max_eq_left (by norm_num : (0 : ℚ) ≤ 1/2)]
    norm_num
  have h := C2_triangle_rasterization 8 (0, 0) (1/2, 0) (0, 1/2) 1 1 5 5
    (by norm_num) harea
    (by exact ⟨le_refl 0, by norm_num, le_refl 0, by norm_num⟩)
    (by exact ⟨by norm_num, by norm_num, le_refl 0, by norm_num⟩)
    (by exact ⟨le_refl 0, by norm_num, by norm_num, by norm_num⟩)
    hin hout
  exact ⟨harea, hin, hout, h.1, h.2⟩

/-- Value of one entry of the `params` dictionary of a sampled operation. -/
inductive ParamValue where
  | str (s : String)
  | num (q : ℚ)
  | bool (b : Bool)

/-- Ground-truth operation (`OperationGT` dataclass, `ml/uvnet/data/synth.py`). -/
structure OperationGT where
  op_type : String
  uv_box : ℚ × ℚ × ℚ × ℚ
  params : List (String × ParamValue)
  mask : Grid
  vertex_ids : List ℕ

/-- Row-major list of `(y, x)` coordinates of pixels with occupancy above
0.5, i.e. the pairing of `np.where(occ > 0.5)`'s two arrays. -/
def validPixels (resolution : ℕ) (occ : Grid) : List (ℕ × ℕ) :=
  ((List.range resolution).map (fun y =>
    ((List.range resolution).filter (fun x => decide (occ y x > 1 / 2))).map
      (fun x => (y, x)))).join

/-- Coordinate of index `k` of `np.linspace(0, 1, R)`: points spaced
`1/(R-1)` apart (a single point 0.0 when `R = 1`). -/
def linsp (R k : ℕ) : ℚ := if R ≤ 1 then 0 else (k : ℚ) / ((R : ℚ) - 1)

/-- The circular mask built by `sample_hole`: meshgrid points of
`np.linspace(0,1,R)` within Euclidean distance `radius` of the center.  The
source compares `np.sqrt(dist2) <= radius`; this is modelled on squares,
which is exact for the nonnegative radii the sampler draws. -/
def holeMask (R : ℕ) (cu cv radius : ℚ) : Grid :=
  fun i j =>
    if i < R ∧ j < R ∧ (linsp R j - cu) ^ 2 + (linsp R i - cv) ^ 2 ≤ radius ^ 2 then 1
    else 0

/-- The rectangular mask built by `sample_extrude`: meshgrid points of
`np.linspace(0,1,R)` inside the inclusive UV box. -/
def rectMask (R : ℕ) (u_min u_max v_min v_max : ℚ) : Grid :=
  fun i j =>
    if i < R ∧ j < R ∧ u_min ≤ linsp R j ∧ linsp R j ≤ u_max ∧
        v_min ≤ linsp R i ∧ linsp R i ≤ v_max then 1
    else 0

/-- Indices of mesh vertices whose UV lies inside the inclusive box (the
`for i, uv in enumerate(mesh.uv)` loops of both samplers). -/
def boxVertexIds (uv : List (ℚ × ℚ)) (u_min u_max v_min v_max : ℚ) : List ℕ :=
  (List.range uv.length).filter (fun i =>
    decide (u_min ≤ (uv.getD i (0, 0)).1 ∧ (uv.getD i (0, 0)).1 ≤ u_max ∧
      v_min ≤ (uv.getD i (0, 0)).2 ∧ (uv.getD i (0, 0)).2 ≤ v_max))

/-- `OperationSampler.sample_hole` (`ml/uvnet/data/synth.py`).  The two
`np.random` draws are passed explicitly: `ridx` is the value of
`np.random.randint(len(valid_y))` (so `ridx < len(valid)` in any reachable
call) and `diameter` the value drawn from
`uniform(min_feature_size/100, max_diameter)`. -/
def sample_hole (mesh : MeshData) (uv_grid : List Grid) (resolution : ℕ)
    (ridx : ℕ) (diameter : ℚ) : Option OperationGT :=
  let occ := uv_grid.headD zeroGrid
  let valid := validPixels resolution occ
  if valid = [] then none
  else
    let yx := valid.getD ridx (0, 0)
    let center_u : ℚ := (yx.2 : ℚ) / (resolution : ℚ)
    let center_v : ℚ := (yx.1 : ℚ) / (resolution : ℚ)
    let radius_uv := diameter / 2
    let u_min := max 0 (center_u - radius_uv)
    let u_max := min 1 (center_u + radius_uv)
    let v_min := max 0 (center_v - radius_uv)
    let v_max := min 1 (center_v + radius_uv)
    some { op_type := "add_hole"
           uv_box := (u_min, u_max, v_min, v_max)
           params := [("shape", ParamValue.str "circular"),
                      ("diameterMm", ParamValue.num (diameter * 100)),
                      ("throughAll", ParamValue.bool true)]
           mask := holeMask resolution center_u center_v radius_uv
           vertex_ids := boxVertexIds mesh.uv u_min u_max v_min v_max }

/-- `OperationSampler.sample_extrude` (`ml/uvnet/data/synth.py`), with every
`np.random` draw passed explicitly. -/
def sample_extrude (mesh : MeshData) (uv_grid : List Grid) (resolution : ℕ)
    (ridx : ℕ) (size_u size_v : ℚ) (direction : String)
    (heightMm taperDeg : ℚ) : Option OperationGT :=
  let occ := uv_grid.headD zeroGrid
  let valid := validPixels resolution occ
  if valid = [] then none
  else
    let yx := valid.getD ridx (0, 0)
    let center_u : ℚ := (yx.2 : ℚ) / (resolution : ℚ)
    let center_v : ℚ := (yx.1 : ℚ) / (resolution : ℚ)
    let u_min := max 0 (center_u - size_u / 2)
    let u_max := min 1 (center_u + size_u / 2)
    let v_min := max 0 (center_v - size_v / 2)
    let v_max := min 1 (center_v + size_v / 2)
    some { op_type := "extrude_region"
           uv_box := (u_min, u_max, v_min, v_max)
           params := [("mode", ParamValue.str "solid"),
                      ("direction", ParamValue.str direction),
                      ("heightMm", ParamValue.num heightMm),
                      ("taperAngleDegrees", ParamValue.num taperDeg),
                      ("capType", ParamValue.str "flat")]
           mask := rectMask resolution u_min u_max v_min v_max
           vertex_ids := boxVertexIds mesh.uv u_min u_max v_min v_max }

theorem validPixels_eq_nil_iff {resolution : ℕ} {occ : Grid} :
    validPixels resolution occ = [] ↔
      ∀ y x, y < resolution → x < resolution → ¬(occ y x > 1 / 2) := by
  constructor
  · intro h y x hy hx hocc
    have hmem : (y, x) ∈ validPixels resolution occ := by
      unfold validPixels
      rw [List.mem_join]
      exact ⟨_, List.mem_map_of_mem _ (List.mem_range.mpr hy),
        List.mem_map_of_mem _
          (List.mem_filter.mpr ⟨List.mem_range.mpr hx, decide_eq_true hocc⟩)⟩
    rw [h] at hmem
    exact List.not_mem_nil _ hmem
  · intro h
    rw [List.eq_nil_iff_forall_not_mem]
    rintro ⟨y, x⟩ hmem
    unfold validPixels at hmem
    rw [List.mem_join] at hmem
    obtain ⟨l, hl, hmem2⟩ := hmem
    obtain ⟨y2, hy2, rfl⟩ := List.mem_map.mp hl
    obtain ⟨x2, hx2, hpair⟩ := List.mem_map.mp hmem2
    obtain ⟨hx2r, hocc⟩ := List.mem_filter.mp hx2
    cases hpair
    exact h _ _ (List.mem_range.mp hy2) (List.mem_range.mp hx2r)
      (of_decide_eq_true hocc)

/-- Claim C7: both samplers return `None` exactly when no pixel of the
occupancy channel exceeds 0.5; with at least one occupied pixel they always
return an operation (and, being total functions, they never raise). -/
theorem C7_sampler_none_iff_empty (mesh : MeshData) (uv_grid : List Grid)
    (resolution ridx : ℕ) (diameter size_u size_v heightMm taperDeg : ℚ)
    (direction : String) :
    (sample_hole mesh uv_grid resolution ridx diameter = none ↔
      ∀ y x, y < resolution → x < resolution →
        ¬((uv_grid.headD zeroGrid) y x > 1 / 2)) ∧
    (sample_extrude mesh uv_grid resolution ridx size_u size_v direction
        heightMm taperDeg = none ↔
      ∀ y x, y < resolution → x < resolution →
        ¬((uv_grid.headD zeroGrid) y x > 1 / 2)) := by
  have hv := @validPixels_eq_nil_iff resolution (uv_grid.headD zeroGrid)
  rw [← hv]
  constructor
  · by_cases h : validPixels resolution (uv_grid.headD zeroGrid) = [] <;>
      simp [sample_hole, h]
  · by_cases h : validPixels resolution (uv_grid.headD zeroGrid) = [] <;>
      simp [sample_extrude, h]

/-- Occupancy mask of an optional operation (`zeroGrid` when absent). -/
def maskOf (o : Option OperationGT) : Grid :=
  (o.map OperationGT.mask).getD zeroGrid

/-- The sampled hole center's U coordinate, `valid_x[idx] / resolution`. -/
def holeCenterU (uv_grid : List Grid) (resolution ridx : ℕ) : ℚ :=
  (((validPixels resolution (uv_grid.headD zeroGrid)).getD ridx (0, 0)).2 : ℚ) /
    (resolution : ℚ)

/-- The sampled hole center's V coordinate, `valid_y[idx] / resolution`. -/
def holeCenterV (uv_grid : List Grid) (resolution ridx : ℕ) : ℚ :=
  (((validPixels resolution (uv_grid.headD zeroGrid)).getD ridx (0, 0)).1 : ℚ) /
    (resolution : ℚ)

theorem sq_dist_le_iff_sqrt {a b r : ℝ} (hr : 0 ≤ r) :
    a ^ 2 + b ^ 2 ≤ r ^ 2 ↔ Real.sqrt (a ^ 2 + b ^ 2) ≤ r := by
  constructor
  · intro h
    calc Real.sqrt (a ^ 2 + b ^ 2) ≤ Real.sqrt (r ^ 2) := Real.sqrt_le_sqrt h
      _ = r := Real.sqrt_sq hr
  · intro h
    have h1 : (0 : ℝ) ≤ a ^ 2 + b ^ 2 := by positivity
    calc a ^ 2 + b ^ 2 = Real.sqrt (a ^ 2 + b ^ 2) ^ 2 := (Real.sq_sqrt h1).symm
      _ ≤ r ^ 2 := pow_le_pow_left (Real.sqrt_nonneg _) h 2

/-- Claim C6, amended: the returned hole mask sets exactly the grid points of
the `np.linspace(0,1,R)` meshgrid — points spaced `1/(R-1)` apart, NOT the
rasterizer's `k/R` pixel convention — whose Euclidean distance to the
sampled center is at most `diameter/2`. -/
theorem C6_hole_mask_geometry (mesh : MeshData) (uv_grid : List Grid)
    (resolution ridx : ℕ) (diameter : ℚ) (hd : 0 ≤ diameter)
    (hne : validPixels resolution (uv_grid.headD zeroGrid) ≠ []) (i j : ℕ) :
    maskOf (sample_hole mesh uv_grid resolution ridx diameter) i j = 1 ↔
      (i < resolution ∧ j < resolution ∧
        Real.sqrt (((linsp resolution j : ℝ) - (holeCenterU uv_grid resolution ridx : ℝ)) ^ 2 +
            ((linsp resolution i : ℝ) - (holeCenterV uv_grid resolution ridx : ℝ)) ^ 2)
          ≤ (diameter : ℝ) / 2) := by
  have hmask : maskOf (sample_hole mesh uv_grid resolution ridx diameter)
      = holeMask resolution (holeCenterU uv_grid resolution ridx)
          (holeCenterV uv_grid resolution ridx) (diameter / 2) := by
    unfold sample_hole
    rw [if_neg hne]
    rfl
  have hr : (0 : ℝ) ≤ (diameter : ℝ) / 2 := by
    have : (0 : ℝ) ≤ (diameter : ℝ) := by exact_mod_cast hd
    linarith
  have hbridge :
      ((linsp resolution j - holeCenterU uv_grid resolution ridx) ^ 2 +
          (linsp resolution i - holeCenterV uv_grid resolution ridx) ^ 2 ≤
        (diameter / 2) ^ 2) ↔
      Real.sqrt (((linsp resolution j : ℝ) - (holeCenterU uv_grid resolution ridx : ℝ)) ^ 2 +
          ((linsp resolution i : ℝ) - (holeCenterV uv_grid resolution ridx : ℝ)) ^ 2)
        ≤ (diameter : ℝ) / 2 := by
    rw [← sq_dist_le_iff_sqrt hr]
    constructor
    · intro h
      exact_mod_cast h
    · intro h
      exact_mod_cast h
  rw [hmask]
  unfold holeMask
  by_cases hc : i < resolution ∧ j < resolution ∧
      (linsp resolution j - holeCenterU uv_grid resolution ridx) ^ 2 +
        (linsp resolution i - holeCenterV uv_grid resolution ridx) ^ 2 ≤
        (diameter / 2) ^ 2
  · rw [if_pos hc]
    exact iff_of_true rfl ⟨hc.1, hc.2.1, hbridge.mp hc.2.2⟩
  · rw [if_neg hc]
    refine iff_of_false (by norm_num) ?_
    rintro ⟨h1, h2, h3⟩
    exact hc ⟨h1, h2, hbridge.mpr h3⟩

/-- A 2×2 occupancy grid with the single occupied pixel `(y, x) = (0, 1)`. -/
def occSingle : Grid := fun i j => if i = 0 ∧ j = 1 then 1 else 0

theorem validPixels_occSingle : validPixels 2 occSingle = [(0, 1)] := by
  unfold validPixels occSingle
  rw [show List.range 2 = [0, 1] from rfl]
  norm_num [List.filter_cons, List.filter_nil, List.join]

theorem sample_hole_occSingle_mask (d : ℚ) :
    maskOf (sample_hole ⟨[], [], []⟩ [occSingle] 2 0 d) = holeMask 2 (1/2) 0 (d / 2) := by
  simp only [sample_hole, List.headD_cons, validPixels_occSingle]
  rw [if_neg (by simp : ¬([((0 : ℕ), (1 : ℕ))] = ([] : List (ℕ × ℕ))))]
  unfold maskOf
  simp only [Option.map_some', Option.getD_some, List.getD_cons_zero]
  congr 1 <;> norm_num

theorem holeCenterU_occSingle : holeCenterU [occSingle] 2 0 = 1/2 := by
  unfold holeCenterU
  simp only [List.headD_cons, validPixels_occSingle]
  norm_num

theorem holeCenterV_occSingle : holeCenterV [occSingle] 2 0 = 0 := by
  unfold holeCenterV
  simp only [List.headD_cons, validPixels_occSingle]
  norm_num

/-- Claim C6 counterexample: for the 2×2 grid with occupied pixel
`(y,x) = (0,1)` and diameter `1/5`, the pixel `(i,j) = (0,1)` whose
rasterizer-convention sample point `(j/R, i/R) = (1/2, 0)` is EXACTLY the
sampled center (distance 0 ≤ radius) nevertheless gets mask value 0,
because the mask's meshgrid coordinate of column 1 is `1/(R-1) = 1`, not
`1/2`. -/
theorem C6_pixel_convention_counterexample :
    maskOf (sample_hole ⟨[], [], []⟩ [occSingle] 2 0 (1/5)) 0 1 = 0 ∧
      ((1 : ℚ) / 2 - holeCenterU [occSingle] 2 0) ^ 2 +
        ((0 : ℚ) / 2 - holeCenterV [occSingle] 2 0) ^ 2 ≤ (1 / 5 / 2) ^ 2 := by
  constructor
  · rw [sample_hole_occSingle_mask]
    norm_num [holeMask, linsp]
  · rw [holeCenterU_occSingle, holeCenterV_occSingle]
    norm_num

/-- Claim C6 witness: the amended characterization applied to the concrete
2×2 grid, occupied pixel `(0,1)`, diameter `1/5`, at pixel `(0,1)`. -/
theorem C6_hole_mask_geometry_witness :
    (0 : ℚ) ≤ 1/5 ∧
      validPixels 2 (List.headD [occSingle] zeroGrid) ≠ [] ∧
      (maskOf (sample_hole ⟨[], [], []⟩ [occSingle] 2 0 (1/5)) 0 1 = 1 ↔
        (0 < 2 ∧ 1 < 2 ∧
          Real.sqrt (((linsp 2 1 : ℝ) - (holeCenterU [occSingle] 2 0 : ℝ)) ^ 2 +
              ((linsp 2 0 : ℝ) - (holeCenterV [occSingle] 2 0 : ℝ)) ^ 2)
            ≤ ((1/5 : ℚ) : ℝ) / 2)) := by
  have hne : validPixels 2 (List.headD [occSingle] zeroGrid) ≠ [] := by
    simp only [List.headD_cons, validPixels_occSingle]
    simp
  exact ⟨by norm_num, hne,
    C6_hole_mask_geometry ⟨[], [], []⟩ [occSingle] 2 0 (1/5) (by norm_num) hne 0 1⟩

/-- Claim C10: `sample_hole` succeeds on this grid, the diameter `1/200`
lies within the configured bounds (`min_feature_size/100 = 0.005` up to
`min(0.2, 1 - 2*min_wall_thickness/100)` at the default configuration), yet
the returned mask is all-zero: the disc of radius `1/400` around the center
`(1/2, 0)` contains none of the meshgrid points, which are spaced
`1/(R-1) = 1` apart. -/
theorem C10_hole_all_zero_mask :
    (sample_hole ⟨[], [], []⟩ [occSingle] 2 0 (1/200)).isSome = true ∧
      ((1 : ℚ) / 2 / 100 ≤ 1/200 ∧ (1/200 : ℚ) ≤ min (1/5) (1 - 2 * (1/100))) ∧
      ∀ i j, maskOf (sample_hole ⟨[], [], []⟩ [occSingle] 2 0 (1/200)) i j = 0 := by
  refine ⟨?_, ⟨by norm_num, by norm_num⟩, ?_⟩
  · simp only [sample_hole, List.headD_cons, validPixels_occSingle]
    rw [if_neg (by simp : ¬([((0 : ℕ), (1 : ℕ))] = ([] : List (ℕ × ℕ))))]
    rfl
  · intro i j
    rw [sample_hole_occSingle_mask]
    unfold holeMask
    rw [if_neg]
    rintro ⟨hi, hj, hd2⟩
    interval_cases i <;> interval_cases j <;> norm_num [linsp] at hd2

/-- Mean of a parameter vector as `np.std` computes it. -/
noncomputable def npMean (l : List ℚ) : ℝ :=
  ((l.map (fun x : ℚ => (x : ℝ))).sum) / (l.length : ℝ)

/-- Population standard deviation `np.std` of a parameter vector. -/
noncomputable def npStd (l : List ℚ) : ℝ :=
  Real.sqrt (((l.map (fun x : ℚ => ((x : ℝ) - npMean l) ^ 2)).sum) / (l.length : ℝ))

/-- `np.clip(x, 0, 1)`. -/
noncomputable def clip01 (x : ℝ) : ℝ := min 1 (max 0 x)

/-- `compute_confidence` (`services/native-geo/app.py`): mean per-pixel
binary entropy of the soft mask (with the `1e-7` guard inside the logs),
parameter dispersion via `np.std`, each mapped to a confidence and
averaged. -/
noncomputable def compute_confidence (H W : ℕ) (mask : Grid) (params : List ℚ) : ℝ :=
  let mask_entropy : ℝ :=
    -(∑ i ∈ Finset.range H, ∑ j ∈ Finset.range W,
        ((mask i j : ℝ) * Real.log ((mask i j : ℝ) + 1 / 10 ^ 7) +
          (1 - (mask i j : ℝ)) * Real.log (1 - (mask i j : ℝ) + 1 / 10 ^ 7))) /
      ((H : ℝ) * (W : ℝ))
  let mask_conf := 1 - clip01 (mask_entropy / 10)
  let param_conf := 1 - clip01 (npStd params / 2)
  (mask_conf + param_conf) / 2

theorem list_map_sum_const {l : List ℚ} {c : ℚ} (h : ∀ x ∈ l, x = c) :
    (l.map (fun x : ℚ => (x : ℝ))).sum = (l.length : ℝ) * (c : ℝ) := by
  induction l with
  | nil => simp
  | cons a t ih =>
    simp only [List.map_cons, List.sum_cons, List.length_cons]
    rw [h a (List.mem_cons_self a t), ih (fun x hx => h x (List.mem_cons_of_mem a hx))]
    push_cast
    ring

theorem list_sq_dev_zero {l : List ℚ} {m : ℝ} (h : ∀ x ∈ l, (x : ℝ) = m) :
    (l.map (fun x : ℚ => ((x : ℝ) - m) ^ 2)).sum = 0 := by
  induction l with
  | nil => simp
  | cons a t ih =>
    simp only [List.map_cons, List.sum_cons]
    rw [h a (List.mem_cons_self a t), ih (fun x hx => h x (List.mem_cons_of_mem a hx))]
    ring

theorem npStd_const {l : List ℚ} {c : ℚ} (hne : l ≠ []) (h : ∀ x ∈ l, x = c) :
    npStd l = 0 := by
  have hlen : (0 : ℝ) < (l.length : ℝ) := by
    have : 0 < l.length := List.length_pos.mpr hne
    exact_mod_cast this
  have hmean : npMean l = (c : ℝ) := by
    unfold npMean
    rw [list_map_sum_const h]
    field_simp
  have hdev : (l.map (fun x : ℚ => ((x : ℝ) - npMean l) ^ 2)).sum = 0 := by
    apply list_sq_dev_zero
    intro x hx
    rw [hmean, h x hx]
  unfold npStd
  rw [hdev]
  simp [Real.sqrt_eq_zero']

/-- Claim C9: a soft mask whose pixels are all exactly 0 or exactly 1,
combined with a constant (nonempty) parameter vector, yields confidence
exactly 1.  The per-pixel entropy term is `log(1 + 1e-7) > 0`, so the
negated mean entropy is negative and clips to 0; the constant vector has
standard deviation 0. -/
theorem C9_confidence_binary_mask (H W : ℕ) (mask : Grid) (params : List ℚ)
    (c : ℚ) (hH : 0 < H) (hW : 0 < W)
    (hmask : ∀ i j, i < H → j < W → mask i j = 0 ∨ mask i j = 1)
    (hne : params ≠ []) (hconst : ∀ x ∈ params, x = c) :
    compute_confidence H W mask params = 1 := by
  have hlog : 0 < Real.log (1 + 1 / 10 ^ 7) := Real.log_pos (by norm_num)
  have hsum : ∑ i ∈ Finset.range H, ∑ j ∈ Finset.range W,
      ((mask i j : ℝ) * Real.log ((mask i j : ℝ) + 1 / 10 ^ 7) +
        (1 - (mask i j : ℝ)) * Real.log (1 - (mask i j : ℝ) + 1 / 10 ^ 7))
      = (H : ℝ) * (W : ℝ) * Real.log (1 + 1 / 10 ^ 7) := by
    have hterm : ∀ i ∈ Finset.range H, ∀ j ∈ Finset.range W,
        ((mask i j : ℝ) * Real.log ((mask i j : ℝ) + 1 / 10 ^ 7) +
          (1 - (mask i j : ℝ)) * Real.log (1 - (mask i j : ℝ) + 1 / 10 ^ 7))
          = Real.log (1 + 1 / 10 ^ 7) := by
      intro i hi j hj
      rcases hmask i j (Finset.mem_range.mp hi) (Finset.mem_range.mp hj) with h | h <;>
        rw [h] <;> push_cast <;> norm_num
    rw [Finset.sum_congr rfl fun i hi =>
      Finset.sum_congr rfl fun j hj => hterm i hi j hj]
    simp only [Finset.sum_const, Finset.card_range, smul_eq_mul]
    ring
  have hHW : ((H : ℝ) * (W : ℝ)) ≠ 0 := by
    have h1 : (0 : ℝ) < (H : ℝ) := by exact_mod_cast hH
    have h2 : (0 : ℝ) < (W : ℝ) := by exact_mod_cast hW
    positivity
  unfold compute_confidence
  dsimp only
  rw [hsum, npStd_const hne hconst]
  have harg : -((H : ℝ) * (W : ℝ) * Real.log (1 + 1 / 10 ^ 7)) / ((H : ℝ) * (W : ℝ)) / 10
      = -Real.log (1 + 1 / 10 ^ 7) / 10 := by
    field_simp
    ring
  rw [harg]
  have hclip1 : clip01 (-Real.log (1 + 1 / 10 ^ 7) / 10) = 0 := by
    unfold clip01
    rw [max_eq_left (by linarith), min_eq_right (by norm_num)]
  have hclip2 : clip01 ((0 : ℝ) / 2) = 0 := by
    unfold clip01
    norm_num
  rw [hclip1, hclip2]
  norm_num

/-- Claim C9 witness: a 1×1 all-ones mask with the constant parameter
vector `[1/2, 1/2]` has confidence exactly 1. -/
theorem C9_confidence_binary_mask_witness :
    0 < 1 ∧ ([(1 : ℚ)/2, 1/2] ≠ ([] : List ℚ)) ∧
      compute_confidence 1 1 (fun _ _ => 1) [1/2, 1/2] = 1 := by
  refine ⟨by norm_num, by simp, ?_⟩
  exact C9_confidence_binary_mask 1 1 (fun _ _ => 1) [1/2, 1/2] (1/2)
    (by norm_num) (by norm_num) (fun i j _ _ => Or.inr rfl)
    (by simp) (by intro x hx; rcases List.mem_cons.mp hx with h | h
                  · exact h
                  · simpa using h)

/-- 4-neighborhood of grid positions: the default structuring element of
`scipy.ndimage.label` connects pixels that differ by one step along exactly
one axis. -/
def neighb {R : ℕ} (p q : Fin R × Fin R) : Prop :=
  (p.1 = q.1 ∧ (p.2.val + 1 = q.2.val ∨ q.2.val + 1 = p.2.val)) ∨
    (p.2 = q.2 ∧ (p.1.val + 1 = q.1.val ∨ q.1.val + 1 = p.1.val))

instance neighbDec {R : ℕ} (p q : Fin R × Fin R) : Decidable (neighb p q) := by
  unfold neighb
  infer_instance

/-- Adjacency inside a thresholded mask: both pixels set and 4-adjacent. -/
def adjPix {R : ℕ} (b : Fin R × Fin R → Bool) (p q : Fin R × Fin R) : Prop :=
  b p = true ∧ b q = true ∧ neighb p q

instance adjPixDec {R : ℕ} (b : Fin R × Fin R → Bool) (p q : Fin R × Fin R) :
    Decidable (adjPix b p q) := by
  unfold adjPix
  infer_instance

theorem neighb_symm {R : ℕ} {p q : Fin R × Fin R} (h : neighb p q) : neighb q p := by
  unfold neighb at *
  tauto

theorem adjPix_symm {R : ℕ} {b : Fin R × Fin R → Bool} :
    Symmetric (adjPix b) := by
  intro p q ⟨h1, h2, h3⟩
  exact ⟨h2, h1, neighb_symm h3⟩

/-- One expansion step of a pixel set through in-mask adjacency. -/
def expandC {R : ℕ} (b : Fin R × Fin R → Bool) (s : Finset (Fin R × Fin R)) :
    Finset (Fin R × Fin R) :=
  s ∪ Finset.univ.filter (fun q => ∃ p ∈ s, adjPix b p q)

/-- Saturated reachable set from `p`; `R²` expansion steps always reach the
fixpoint since each non-stable step grows the set. -/
def reachC {R : ℕ} (b : Fin R × Fin R → Bool) (p : Fin R × Fin R) :
    Finset (Fin R × Fin R) :=
  (expandC b)^[R * R] {p}

/-- Connectivity as the flood-fill computes it. -/
def connectedC {R : ℕ} (b : Fin R × Fin R → Bool) (p q : Fin R × Fin R) : Prop :=
  q ∈ reachC b p

instance connectedCDec {R : ℕ} (b : Fin R × Fin R → Bool) (p q : Fin R × Fin R) :
    Decidable (connectedC b p q) := by
  unfold connectedC
  infer_instance

theorem mem_expandC {R : ℕ} {b : Fin R × Fin R → Bool} {s : Finset (Fin R × Fin R)}
    {q : Fin R × Fin R} :
    q ∈ expandC b s ↔ q ∈ s ∨ ∃ p ∈ s, adjPix b p q := by
  unfold expandC
  simp [Finset.mem_union, Finset.mem_filter]

theorem subset_expandC {R : ℕ} (b : Fin R × Fin R → Bool)
    (s : Finset (Fin R × Fin R)) : s ⊆ expandC b s :=
  Finset.subset_union_left

theorem subset_iterate_expandC {R : ℕ} (b : Fin R × Fin R → Bool)
    (s : Finset (Fin R × Fin R)) (n : ℕ) : s ⊆ (expandC b)^[n] s := by
  induction n with
  | zero => simp
  | succ n ih =>
    rw [Function.iterate_succ_apply']
    exact ih.trans (subset_expandC b _)

theorem iterate_expandC_stab {R : ℕ} (b : Fin R × Fin R → Bool)
    (s : Finset (Fin R × Fin R)) :
    ∀ n, (expandC b)^[n + 1] s = (expandC b)^[n] s ∨
      n + s.card ≤ ((expandC b)^[n] s).card := by
  intro n
  induction n with
  | zero => right; simp
  | succ n ih =>
    have hstep : ∀ m, (expandC b)^[m + 1] s = (expandC b)^[m] s →
        (expandC b)^[m + 2] s = (expandC b)^[m + 1] s := by
      intro m hm
      rw [Function.iterate_succ_apply', hm, ← Function.iterate_succ_apply' (expandC b) m s]
      exact hm
    rcases ih with h | h
    · exact Or.inl (hstep n h)
    · by_cases he : (expandC b)^[n + 1] s = (expandC b)^[n] s
      · exact Or.inl (hstep n he)
      · right
        have hsub : (expandC b)^[n] s ⊆ (expandC b)^[n + 1] s := by
          rw [Function.iterate_succ_apply']
          exact subset_expandC b _
        have hlt : ((expandC b)^[n] s).card < ((expandC b)^[n + 1] s).card :=
          Finset.card_lt_card (Finset.ssubset_iff_subset_ne.mpr ⟨hsub, Ne.symm he⟩)
        omega

theorem expandC_reachC {R : ℕ} (b : Fin R × Fin R → Bool) (p : Fin R × Fin R) :
    expandC b (reachC b p) = reachC b p := by
  have hcard : ((expandC b)^[R * R] {p}).card ≤ R * R := by
    calc ((expandC b)^[R * R] {p}).card ≤ Finset.univ.card := Finset.card_le_univ _
      _ = R * R := by simp [Fintype.card_prod]
  rcases iterate_expandC_stab b {p} (R * R) with h | h
  · unfold reachC
    calc expandC b ((expandC b)^[R * R] {p})
        = (expandC b)^[R * R + 1] {p} := (Function.iterate_succ_apply' _ _ _).symm
      _ = (expandC b)^[R * R] {p} := h
  · rw [Finset.card_singleton] at h
    omega

theorem reachC_iff_reflTransGen {R : ℕ} (b : Fin R × Fin R → Bool)
    (p q : Fin R × Fin R) :
    connectedC b p q ↔ Relation.ReflTransGen (adjPix b) p q := by
  constructor
  · have hgen : ∀ n q2, q2 ∈ (expandC b)^[n] {p} →
        Relation.ReflTransGen (adjPix b) p q2 := by
      intro n
      induction n with
      | zero =>
        intro q2 hq2
        rw [Function.iterate_zero_apply, Finset.mem_singleton] at hq2
        exact hq2 ▸ Relation.ReflTransGen.refl
      | succ n ih =>
        intro q2 hq2
        rw [Function.iterate_succ_apply'] at hq2
        rcases mem_expandC.mp hq2 with h | ⟨p2, hp2, hadj⟩
        · exact ih q2 h
        · exact Relation.ReflTransGen.tail (ih p2 hp2) hadj
    exact hgen (R * R) q
  · intro h
    induction h with
    | refl =>
      exact subset_iterate_expandC b {p} (R * R) (Finset.mem_singleton_self p)
    | tail hq2 hadj ih =>
      have := mem_expandC.mpr (Or.inr ⟨_, ih, hadj⟩)
      rwa [expandC_reachC] at this

/-- Row-major scan index of a grid position (the order in which
`ndimage.label` first encounters pixels). -/
def rasterIdx {R : ℕ} (p : Fin R × Fin R) : ℕ := p.1.val * R + p.2.val

theorem rasterIdx_injective {R : ℕ} : Function.Injective (@rasterIdx R) := by
  have key : ∀ a1 a2 b1 b2 : ℕ, b1 < R → b2 < R →
      a1 * R + b1 = a2 * R + b2 → a1 = a2 ∧ b1 = b2 := by
    intro a1 a2 b1 b2 hb1 hb2 heq
    rcases Nat.lt_trichotomy a1 a2 with h | h | h
    · have h2 : (a1 + 1) * R ≤ a2 * R :=
        Nat.mul_le_mul_right R (Nat.succ_le_of_lt h)
      rw [Nat.add_mul] at h2
      omega
    · subst h
      omega
    · have h2 : (a2 + 1) * R ≤ a1 * R :=
        Nat.mul_le_mul_right R (Nat.succ_le_of_lt h)
      rw [Nat.add_mul] at h2
      omega
  rintro ⟨⟨i1, hi1⟩, ⟨j1, hj1⟩⟩ ⟨⟨i2, hi2⟩, ⟨j2, hj2⟩⟩ h
  unfold rasterIdx at h
  simp only at h
  obtain ⟨h1, h2⟩ := key i1 i2 j1 j2 hj1 hj2 h
  simp [h1, h2]

instance rasterLeDec {R : ℕ} :
    DecidableRel (fun p q : Fin R × Fin R => rasterIdx p ≤ rasterIdx q) :=
  fun _ _ => Nat.decLe _ _

instance rasterLeTrans {R : ℕ} :
    IsTrans (Fin R × Fin R) (fun p q => rasterIdx p ≤ rasterIdx q) :=
  ⟨fun _ _ _ h1 h2 => le_trans h1 h2⟩

instance rasterLeAntisymm {R : ℕ} :
    IsAntisymm (Fin R × Fin R) (fun p q => rasterIdx p ≤ rasterIdx q) :=
  ⟨fun _ _ h1 h2 => rasterIdx_injective (le_antisymm h1 h2)⟩

instance rasterLeTotal {R : ℕ} :
    IsTotal (Fin R × Fin R) (fun p q => rasterIdx p ≤ rasterIdx q) :=
  ⟨fun _ _ => le_total _ _⟩

/-- A set pixel that comes first in raster order within its connected
component: exactly one per component, and `ndimage.label` assigns label
`k` to the component of the `k`-th such pixel in raster order. -/
def isRep {R : ℕ} (b : Fin R × Fin R → Bool) (p : Fin R × Fin R) : Prop :=
  b p = true ∧ ∀ q, connectedC b p q → rasterIdx p ≤ rasterIdx q

instance isRepDec {R : ℕ} (b : Fin R × Fin R → Bool) :
    DecidablePred (isRep b) := by
  intro p
  unfold isRep
  infer_instance

/-- Component representatives in raster order: the label order of
`scipy.ndimage.label`. -/
def repList {R : ℕ} (b : Fin R × Fin R → Bool) : List (Fin R × Fin R) :=
  (Finset.univ.filter (fun p => isRep b p)).sort
    (fun p q => rasterIdx p ≤ rasterIdx q)

/-- Pixel count of the component of `p` as the flood fill computes it
(`ndimage.sum(binary, labeled, ...)` counts exactly these pixels). -/
def compCard {R : ℕ} (b : Fin R × Fin R → Bool) (p : Fin R × Fin R) : ℕ :=
  (Finset.univ.filter (fun q => connectedC b p q)).card

/-- Index of the first occurrence of the maximum of a list (`np.argmax`). -/
def argmaxFirst : List ℚ → ℕ
  | [] => 0
  | x :: xs => if xs.any (fun z => decide (x < z)) then argmaxFirst xs + 1 else 0

/-- Mathematical pixel count of the connected component of `d` (reflexive-
transitive closure of in-mask adjacency). -/
noncomputable def specCompCard {R : ℕ} (b : Fin R × Fin R → Bool)
    (d : Fin R × Fin R) : ℕ :=
  Nat.card {q // Relation.ReflTransGen (adjPix b) d q}

/-- Smallest raster index inside the connected component of `d`: the
position at which `ndimage.label` first finds the component. -/
noncomputable def specMinIdx {R : ℕ} (b : Fin R × Fin R → Bool)
    (d : Fin R × Fin R) : ℕ :=
  sInf {n | ∃ q, Relation.ReflTransGen (adjPix b) d q ∧ rasterIdx q = n}

/-- The raster-first pixel of the winning component, written from the spec:
largest pixel count, ties broken by the component found first in raster
order (lowest label id). -/
def specBest {R : ℕ} (b : Fin R × Fin R → Bool) (c : Fin R × Fin R) : Prop :=
  b c = true ∧
    (∀ q, Relation.ReflTransGen (adjPix b) c q → rasterIdx c ≤ rasterIdx q) ∧
    (∀ d, b d = true → specCompCard b d ≤ specCompCard b c) ∧
    (∀ d, b d = true → specCompCard b d = specCompCard b c →
      specMinIdx b c ≤ specMinIdx b d)

theorem rtg_preserves_b {R : ℕ} {b : Fin R × Fin R → Bool} {d q : Fin R × Fin R}
    (hd : b d = true) (h : Relation.ReflTransGen (adjPix b) d q) : b q = true := by
  induction h with
  | refl => exact hd
  | tail _ hadj _ => exact hadj.2.1

theorem rtg_symm {R : ℕ} {b : Fin R × Fin R → Bool} {d q : Fin R × Fin R}
    (h : Relation.ReflTransGen (adjPix b) d q) :
    Relation.ReflTransGen (adjPix b) q d :=
  Relation.ReflTransGen.symmetric adjPix_symm h

theorem rtg_class_eq {R : ℕ} {b : Fin R × Fin R → Bool} {d m : Fin R × Fin R}
    (h : Relation.ReflTransGen (adjPix b) d m) :
    ∀ q, Relation.ReflTransGen (adjPix b) d q ↔ Relation.ReflTransGen (adjPix b) m q :=
  fun _ => ⟨fun h2 => (rtg_symm h).trans h2, fun h2 => h.trans h2⟩

theorem specCompCard_congr {R : ℕ} {b : Fin R × Fin R → Bool} {d m : Fin R × Fin R}
    (h : Relation.ReflTransGen (adjPix b) d m) :
    specCompCard b d = specCompCard b m := by
  unfold specCompCard
  have : (fun q => Relation.ReflTransGen (adjPix b) d q)
      = fun q => Relation.ReflTransGen (adjPix b) m q :=
    funext fun q => propext (rtg_class_eq h q)
  rw [this]

theorem specMinIdx_congr {R : ℕ} {b : Fin R × Fin R → Bool} {d m : Fin R × Fin R}
    (h : Relation.ReflTransGen (adjPix b) d m) :
    specMinIdx b d = specMinIdx b m := by
  unfold specMinIdx
  have : {n | ∃ q, Relation.ReflTransGen (adjPix b) d q ∧ rasterIdx q = n}
      = {n | ∃ q, Relation.ReflTransGen (adjPix b) m q ∧ rasterIdx q = n} := by
    ext n
    constructor
    · rintro ⟨q, hq, rfl⟩
      exact ⟨q, (rtg_class_eq h q).mp hq, rfl⟩
    · rintro ⟨q, hq, rfl⟩
      exact ⟨q, (rtg_class_eq h q).mpr hq, rfl⟩
  rw [this]

theorem compCard_eq_specCompCard {R : ℕ} (b : Fin R × Fin R → Bool)
    (p : Fin R × Fin R) : compCard b p = specCompCard b p := by
  classical
  unfold compCard specCompCard
  rw [Nat.card_eq_fintype_card, Fintype.card_subtype]
  congr 1
  apply Finset.filter_congr
  intro q _
  rw [reachC_iff_reflTransGen]

theorem specMinIdx_realized {R : ℕ} (b : Fin R × Fin R → Bool) (d : Fin R × Fin R) :
    ∃ q, Relation.ReflTransGen (adjPix b) d q ∧ rasterIdx q = specMinIdx b d := by
  have hne : {n | ∃ q, Relation.ReflTransGen (adjPix b) d q ∧ rasterIdx q = n}.Nonempty :=
    ⟨rasterIdx d, d, Relation.ReflTransGen.refl, rfl⟩
  exact Nat.sInf_mem hne

theorem specMinIdx_le {R : ℕ} (b : Fin R × Fin R → Bool) {d q : Fin R × Fin R}
    (h : Relation.ReflTransGen (adjPix b) d q) : specMinIdx b d ≤ rasterIdx q :=
  Nat.sInf_le ⟨q, h, rfl⟩

theorem isRep_minIdx {R : ℕ} {b : Fin R × Fin R → Bool} {c : Fin R × Fin R}
    (hc : isRep b c) : specMinIdx b c = rasterIdx c := by
  apply le_antisymm (specMinIdx_le b Relation.ReflTransGen.refl)
  have hne : {n | ∃ q, Relation.ReflTransGen (adjPix b) c q ∧ rasterIdx q = n}.Nonempty :=
    ⟨rasterIdx c, c, Relation.ReflTransGen.refl, rfl⟩
  apply le_csInf hne
  rintro n ⟨q, hq, rfl⟩
  exact hc.2 q ((reachC_iff_reflTransGen b c q).mpr hq)

theorem exists_rep {R : ℕ} {b : Fin R × Fin R → Bool} {d : Fin R × Fin R}
    (hd : b d = true) :
    ∃ m, isRep b m ∧ Relation.ReflTransGen (adjPix b) d m := by
  obtain ⟨m, hm, hidx⟩ := specMinIdx_realized b d
  refine ⟨m, ⟨rtg_preserves_b hd hm, ?_⟩, hm⟩
  intro q hq
  have hq2 : Relation.ReflTransGen (adjPix b) d q :=
    hm.trans ((reachC_iff_reflTransGen b m q).mp hq)
  rw [hidx]
  exact specMinIdx_le b hq2

theorem mem_repList_iff {R : ℕ} {b : Fin R × Fin R → Bool} {p : Fin R × Fin R} :
    p ∈ repList b ↔ isRep b p := by
  unfold repList
  rw [Finset.mem_sort]
  simp

theorem repList_eq_nil_iff {R : ℕ} {b : Fin R × Fin R → Bool} :
    repList b = [] ↔ ∀ p : Fin R × Fin R, b p ≠ true := by
  constructor
  · intro h p hp
    obtain ⟨m, hm, _⟩ := exists_rep hp
    have hmem := mem_repList_iff.mpr hm
    rw [h] at hmem
    exact List.not_mem_nil _ hmem
  · intro h
    rw [List.eq_nil_iff_forall_not_mem]
    intro p hp
    exact h p (mem_repList_iff.mp hp).1

theorem repList_strict_sorted {R : ℕ} (b : Fin R × Fin R → Bool) :
    ∀ k1 k2 (h1 : k1 < (repList b).length) (h2 : k2 < (repList b).length),
      k1 < k2 → rasterIdx ((repList b).get ⟨k1, h1⟩) < rasterIdx ((repList b).get ⟨k2, h2⟩) := by
  intro k1 k2 h1 h2 hlt
  have hsorted := Finset.sort_sorted (fun p q : Fin R × Fin R => rasterIdx p ≤ rasterIdx q)
    (Finset.univ.filter (fun p => isRep b p))
  have hnodup := Finset.sort_nodup (fun p q : Fin R × Fin R => rasterIdx p ≤ rasterIdx q)
    (Finset.univ.filter (fun p => isRep b p))
  have hle := List.pairwise_iff_get.mp hsorted ⟨k1, h1⟩ ⟨k2, h2⟩ hlt
  have hne : (repList b).get ⟨k1, h1⟩ ≠ (repList b).get ⟨k2, h2⟩ := by
    intro he
    have := (List.Nodup.get_inj_iff hnodup).mp he
    simp only [Fin.mk.injEq] at this
    omega
  have : rasterIdx ((repList b).get ⟨k1, h1⟩) ≠ rasterIdx ((repList b).get ⟨k2, h2⟩) :=
    fun he => hne (rasterIdx_injective he)
  exact lt_of_le_of_ne hle this

theorem repList_strict_sorted2 {R : ℕ} (b : Fin R × Fin R → Bool)
    {l : List (Fin R × Fin R)} (hl : repList b = l) :
    ∀ k1 k2 (h1 : k1 < l.length) (h2 : k2 < l.length), k1 < k2 →
      rasterIdx (l.get ⟨k1, h1⟩) < rasterIdx (l.get ⟨k2, h2⟩) := by
  subst hl
  exact repList_strict_sorted b

theorem argmaxFirst_lt_length : ∀ {l : List ℚ}, l ≠ [] → argmaxFirst l < l.length := by
  intro l
  induction l with
  | nil => intro h; exact absurd rfl h
  | cons x xs ih =>
    intro _
    simp only [argmaxFirst]
    by_cases h : xs.any (fun z => decide (x < z)) = true
    · rw [if_pos h]
      have hxs : xs ≠ [] := by
        rintro rfl
        simp at h
      simpa using Nat.succ_lt_succ (ih hxs)
    · rw [if_neg h]
      simp

theorem argmaxFirst_is_max : ∀ (l : List ℚ) (x : ℚ), x ∈ l →
    x ≤ l.getD (argmaxFirst l) 0 := by
  intro l
  induction l with
  | nil =>
    intro x hx
    simp at hx
  | cons a xs ih =>
    intro x hx
    simp only [argmaxFirst]
    by_cases h : xs.any (fun z => decide (a < z)) = true
    · rw [if_pos h]
      simp only [List.getD_cons_succ]
      rcases List.mem_cons.mp hx with rfl | hx2
      · obtain ⟨z, hz, hlt⟩ := List.any_eq_true.mp h
        exact le_trans (le_of_lt (of_decide_eq_true hlt)) (ih z hz)
      · exact ih x hx2
    · rw [if_neg h]
      simp only [List.getD_cons_zero]
      rcases List.mem_cons.mp hx with rfl | hx2
      · exact le_refl x
      · have hall : ∀ z ∈ xs, ¬(a < z) := by
          intro z hz hzlt
          exact h (List.any_eq_true.mpr ⟨z, hz, decide_eq_true hzlt⟩)
        exact not_lt.mp (hall x hx2)

theorem argmaxFirst_strict_before : ∀ (l : List ℚ) (k : ℕ), k < argmaxFirst l →
    l.getD k 0 < l.getD (argmaxFirst l) 0 := by
  intro l
  induction l with
  | nil =>
    intro k hk
    simp [argmaxFirst] at hk
  | cons a xs ih =>
    intro k hk
    simp only [argmaxFirst] at hk ⊢
    by_cases h : xs.any (fun z => decide (a < z)) = true
    · rw [if_pos h] at hk ⊢
      cases k with
      | zero =>
        simp only [List.getD_cons_zero, List.getD_cons_succ]
        obtain ⟨z, hz, hlt⟩ := List.any_eq_true.mp h
        exact lt_of_lt_of_le (of_decide_eq_true hlt) (argmaxFirst_is_max xs z hz)
      | succ k2 =>
        simp only [List.getD_cons_succ]
        exact ih k2 (Nat.lt_of_succ_lt_succ hk)
    · rw [if_neg h] at hk
      omega

/-- `postprocess_mask` (`services/native-geo/app.py`): threshold the soft
mask to binary, label 4-connected components (`scipy.ndimage.label`, whose
labels are assigned in raster-scan first-encounter order — modelled by
`repList`), return the binary mask unchanged when there are no components,
otherwise keep exactly the component whose pixel count (`ndimage.sum` over
labels) wins `np.argmax` — the first maximum, i.e. the lowest label id on
ties. -/
def postprocess_mask (R : ℕ) (mask : Grid) (threshold : ℚ) : Grid :=
  let binary : Grid := fun i j => if mask i j > threshold then 1 else 0
  let b : Fin R × Fin R → Bool := fun p => decide (mask p.1.val p.2.val > threshold)
  match repList b with
  | [] => binary
  | r :: rs =>
    let sizes : List ℚ := (r :: rs).map (fun p => (compCard b p : ℚ))
    let largest := (r :: rs).getD (argmaxFirst sizes) r
    fun i j =>
      if hij : i < R ∧ j < R then
        (if connectedC b largest (⟨i, hij.1⟩, ⟨j, hij.2⟩) then 1 else 0)
      else 0

open Classical in
/-- Postprocessing as the spec words it (§4.4): threshold to a binary mask;
with zero connected components return it unchanged; otherwise return the
mask holding exactly the connected component (reflexive-transitive closure
of 4-adjacency within the thresholded mask) with the largest pixel count,
ties broken by the component first found in raster order. -/
noncomputable def specPostprocess (R : ℕ) (mask : Grid) (threshold : ℚ) : Grid :=
  let binary : Grid := fun i j => if mask i j > threshold then 1 else 0
  let b : Fin R × Fin R → Bool := fun p => decide (mask p.1.val p.2.val > threshold)
  if ∃ p : Fin R × Fin R, b p = true then
    fun i j =>
      if hij : i < R ∧ j < R then
        (if ∃ c, specBest b c ∧
            Relation.ReflTransGen (adjPix b) c (⟨i, hij.1⟩, ⟨j, hij.2⟩) then 1 else 0)
      else 0
  else binary

theorem specBest_largest {R : ℕ} (b : Fin R × Fin R → Bool) (r : Fin R × Fin R)
    (rs : List (Fin R × Fin R)) (hrep : repList b = r :: rs) :
    specBest b ((r :: rs).getD
      (argmaxFirst ((r :: rs).map (fun p => (compCard b p : ℚ)))) r) := by
  have hlen : ((r :: rs).map (fun p => (compCard b p : ℚ))).length = (r :: rs).length := by
    simp
  have hK : argmaxFirst ((r :: rs).map (fun p => (compCard b p : ℚ))) < (r :: rs).length := by
    rw [← hlen]
    exact argmaxFirst_lt_length (by simp)
  have hsizes_get : ∀ k (hk : k < (r :: rs).length),
      ((r :: rs).map (fun p => (compCard b p : ℚ))).getD k 0
        = (compCard b ((r :: rs).get ⟨k, hk⟩) : ℚ) := by
    intro k hk
    rw [List.getD_eq_get _ _ (by rw [hlen]; exact hk), List.get_map]
  have hmemrep : ∀ k (hk : k < (r :: rs).length), isRep b ((r :: rs).get ⟨k, hk⟩) := by
    intro k hk
    apply mem_repList_iff.mp
    rw [hrep]
    exact List.get_mem _ _ _
  rw [List.getD_eq_get _ _ hK]
  have hrepL := hmemrep _ hK
  have hfind : ∀ d : Fin R × Fin R, b d = true →
      ∃ k, ∃ hk : k < (r :: rs).length,
        Relation.ReflTransGen (adjPix b) d ((r :: rs).get ⟨k, hk⟩) := by
    intro d hd
    obtain ⟨m, hm, hdm⟩ := exists_rep hd
    have hmem : m ∈ (r :: rs) := by
      rw [← hrep]
      exact mem_repList_iff.mpr hm
    obtain ⟨⟨k, hk⟩, rfl⟩ := List.mem_iff_get.mp hmem
    exact ⟨k, hk, hdm⟩
  have hmax : ∀ d, b d = true → specCompCard b d ≤
      specCompCard b ((r :: rs).get
        ⟨argmaxFirst ((r :: rs).map (fun p => (compCard b p : ℚ))), hK⟩) := by
    intro d hd
    obtain ⟨k, hk, hdm⟩ := hfind d hd
    have h1 : specCompCard b d = compCard b ((r :: rs).get ⟨k, hk⟩) := by
      rw [specCompCard_congr hdm, compCard_eq_specCompCard]
    have h2 : ((r :: rs).map (fun p => (compCard b p : ℚ))).getD k 0 ≤
        ((r :: rs).map (fun p => (compCard b p : ℚ))).getD
          (argmaxFirst ((r :: rs).map (fun p => (compCard b p : ℚ)))) 0 := by
      apply argmaxFirst_is_max
      rw [List.getD_eq_get _ _ (by rw [hlen]; exact hk)]
      exact List.get_mem _ _ _
    rw [hsizes_get k hk, hsizes_get _ hK] at h2
    rw [h1, ← compCard_eq_specCompCard]
    exact_mod_cast h2
  refine ⟨hrepL.1, ?_, hmax, ?_⟩
  · intro q hq
    exact hrepL.2 q ((reachC_iff_reflTransGen b _ q).mpr hq)
  · intro d hd hcardeq
    obtain ⟨k, hk, hdm⟩ := hfind d hd
    have hrepM : isRep b ((r :: rs).get ⟨k, hk⟩) := hmemrep k hk
    have hKk : argmaxFirst ((r :: rs).map (fun p => (compCard b p : ℚ))) ≤ k := by
      by_contra hcon
      push_neg at hcon
      have hstrict := argmaxFirst_strict_before
        ((r :: rs).map (fun p => (compCard b p : ℚ))) k hcon
      rw [hsizes_get k hk, hsizes_get _ hK] at hstrict
      have hlt : compCard b ((r :: rs).get ⟨k, hk⟩) <
          compCard b ((r :: rs).get
            ⟨argmaxFirst ((r :: rs).map (fun p => (compCard b p : ℚ))), hK⟩) := by
        exact_mod_cast hstrict
      have heq1 : specCompCard b d = compCard b ((r :: rs).get ⟨k, hk⟩) := by
        rw [specCompCard_congr hdm, compCard_eq_specCompCard]
      rw [heq1, ← compCard_eq_specCompCard] at hcardeq
      omega
    have hidxle : rasterIdx ((r :: rs).get
        ⟨argmaxFirst ((r :: rs).map (fun p => (compCard b p : ℚ))), hK⟩) ≤
        rasterIdx ((r :: rs).get ⟨k, hk⟩) := by
      rcases Nat.eq_or_lt_of_le hKk with heq | hlt
      · subst heq
        exact le_refl _
      · exact le_of_lt (repList_strict_sorted2 b hrep _ k hK hk hlt)
    rw [specMinIdx_congr hdm, isRep_minIdx hrepM, isRep_minIdx hrepL]
    exact hidxle

theorem specBest_unique {R : ℕ} {b : Fin R × Fin R → Bool} {c1 c2 : Fin R × Fin R}
    (h1 : specBest b c1) (h2 : specBest b c2) : c1 = c2 := by
  have hcard : specCompCard b c1 = specCompCard b c2 :=
    le_antisymm (h2.2.2.1 c1 h1.1) (h1.2.2.1 c2 h2.1)
  have hmin : specMinIdx b c1 = specMinIdx b c2 :=
    le_antisymm (h1.2.2.2 c2 h2.1 hcard.symm) (h2.2.2.2 c1 h1.1 hcard)
  obtain ⟨m1, hm1, hidx1⟩ := specMinIdx_realized b c1
  obtain ⟨m2, hm2, hidx2⟩ := specMinIdx_realized b c2
  have hm12 : m1 = m2 := rasterIdx_injective (by rw [hidx1, hidx2, hmin])
  subst hm12
  have hc12 : Relation.ReflTransGen (adjPix b) c1 c2 := hm1.trans (rtg_symm hm2)
  exact rasterIdx_injective
    (le_antisymm (h1.2.1 c2 hc12) (h2.2.1 c1 (rtg_symm hc12)))

/-- Claim C8: the mask postprocessor equals its specification — it returns
the thresholded binary mask unchanged when it has no connected component,
and otherwise a mask whose set pixels are exactly those of the connected
component with the largest pixel count, ties broken by the first-found
(lowest label id) component. -/
theorem C8_postprocess_largest_component (R : ℕ) (mask : Grid) (threshold : ℚ) :
    postprocess_mask R mask threshold = specPostprocess R mask threshold := by
  classical
  unfold postprocess_mask specPostprocess
  dsimp only
  rcases hrep : @repList R (fun p => decide (mask p.1.val p.2.val > threshold))
    with _ | ⟨r, rs⟩
  · have hnone : ¬∃ p : Fin R × Fin R,
        (fun p : Fin R × Fin R => decide (mask p.1.val p.2.val > threshold)) p = true := by
      rw [repList_eq_nil_iff] at hrep
      rintro ⟨p, hp⟩
      exact hrep p hp
    dsimp only
    rw [if_neg hnone]
  · have hr_rep : isRep (fun p : Fin R × Fin R => decide (mask p.1.val p.2.val > threshold)) r := by
      apply mem_repList_iff.mp
      rw [hrep]
      exact List.mem_cons_self r rs
    have hsome : ∃ p : Fin R × Fin R,
        (fun p : Fin R × Fin R => decide (mask p.1.val p.2.val > threshold)) p = true :=
      ⟨r, hr_rep.1⟩
    dsimp only
    rw [if_pos hsome]
    have hbest := specBest_largest
      (fun p : Fin R × Fin R => decide (mask p.1.val p.2.val > threshold)) r rs hrep
    funext i j
    by_cases hij : i < R ∧ j < R
    · rw [dif_pos hij, dif_pos hij]
      refine if_congr ?_ rfl rfl
      constructor
      · intro h
        exact ⟨_, hbest, (reachC_iff_reflTransGen _ _ _).mp h⟩
      · rintro ⟨c, hc, hrtg⟩
        have hce : c = (r :: rs).getD
            (argmaxFirst ((r :: rs).map (fun p =>
              (compCard (fun p : Fin R × Fin R =>
                decide (mask p.1.val p.2.val > threshold)) p : ℚ)))) r :=
          specBest_unique hc hbest
        exact (reachC_iff_reflTransGen _ _ _).mpr (hce ▸ hrtg)
    · rw [dif_neg hij, dif_neg hij]
